import Mathlib

/-!
Verification of the layout-analysis core of `paves` (`src/paves/miner.py`)
against its natural-language specification.

The Python source is shallowly embedded: coordinates (Python floats) are
modelled as rationals, Python's `int()` truncation and `//` floor division
are modelled exactly on `ℤ`, bounded containers become lists, and the
`heapq` priority queue becomes "pop the least tuple" (all queue entries are
pairwise distinct tuples, so this is exactly the heap's observable
behaviour).  Python object identity (`id(...)`) is modelled by explicit
id-assignment functions, so that claims about (in)dependence on memory
addresses can be stated.
-/

namespace PavesMiner

/-- Axis-aligned bounding box `(x0, y0, x1, y1)`, as used throughout
`miner.py` (`Rect`). -/
structure BBox where
  x0 : ℚ
  y0 : ℚ
  x1 : ℚ
  y1 : ℚ
deriving DecidableEq, Repr

instance : Inhabited BBox := ⟨⟨0, 0, 0, 0⟩⟩

/-- `LTComponent.width` -/
def BBox.width (b : BBox) : ℚ := b.x1 - b.x0

/-- `LTComponent.height` -/
def BBox.height (b : BBox) : ℚ := b.y1 - b.y0

/-- `INT32_MAX` from miner.py (sentinel used by expandable containers). -/
def INT32_MAX : ℚ := 2147483647

/-- `INT32_MIN` from miner.py. -/
def INT32_MIN : ℚ := -2147483648

/-- Python's `min` on two rationals, written so that it evaluates inside
the kernel (Mathlib's lattice `min` on `ℚ` does not reduce under
`decide`).  Proven equal to `min` below. -/
def qmin (a b : ℚ) : ℚ := if a ≤ b then a else b

/-- Python's `max` on two rationals (see `qmin`). -/
def qmax (a b : ℚ) : ℚ := if a ≤ b then b else a

/-- Python's `abs` on a rational (see `qmin`). -/
def qabs (a : ℚ) : ℚ := if 0 ≤ a then a else -a

/-- `LTComponent.is_hoverlap` (miner.py lines 329-331):
`obj.x0 <= self.x1 and self.x0 <= obj.x1`. -/
def is_hoverlap (a b : BBox) : Bool := decide (b.x0 ≤ a.x1 ∧ a.x0 ≤ b.x1)

/-- `LTComponent.hdistance` (miner.py lines 333-338). -/
def hdistance (a b : BBox) : ℚ :=
  if is_hoverlap a b then 0 else qmin (qabs (a.x0 - b.x1)) (qabs (a.x1 - b.x0))

/-- `LTComponent.hoverlap` (miner.py lines 340-345). -/
def hoverlap (a b : BBox) : ℚ :=
  if is_hoverlap a b then qmin (qabs (a.x0 - b.x1)) (qabs (a.x1 - b.x0)) else 0

/-- `LTComponent.is_voverlap` (miner.py lines 347-349). -/
def is_voverlap (a b : BBox) : Bool := decide (b.y0 ≤ a.y1 ∧ a.y0 ≤ b.y1)

/-- `LTComponent.vdistance` (miner.py lines 351-356). -/
def vdistance (a b : BBox) : ℚ :=
  if is_voverlap a b then 0 else qmin (qabs (a.y0 - b.y1)) (qabs (a.y1 - b.y0))

/-- `LTComponent.voverlap` (miner.py lines 358-363). -/
def voverlap (a b : BBox) : ℚ :=
  if is_voverlap a b then qmin (qabs (a.y0 - b.y1)) (qabs (a.y1 - b.y0)) else 0

/-- `LAParams.boxes_flow` as a Python value: `None`, a number, or some
non-numeric object. -/
inductive BoxesFlow where
  | none
  | num (q : ℚ)
  | nonNumeric
deriving DecidableEq, Repr

/-- The two exception classes `LAParams._validate` can raise
(miner.py lines 255-265): `PDFTypeError` and `PDFValueError`. -/
inductive LAParamsError where
  | typeError
  | valueError
deriving DecidableEq, Repr

/-- `LAParams._validate` (miner.py lines 255-265), called from
`LAParams.__init__` (line 253) before any analysis happens. -/
def validate_boxes_flow : BoxesFlow → Except LAParamsError Unit
  | BoxesFlow.none => Except.ok ()
  | BoxesFlow.nonNumeric => Except.error LAParamsError.typeError
  | BoxesFlow.num q =>
      if -1 ≤ q ∧ q ≤ 1 then Except.ok () else Except.error LAParamsError.valueError

/-- The layout-analysis configuration `LAParams` (miner.py lines 235-253).
The constructor stores the fields and then runs `_validate`. -/
structure LAParams where
  line_overlap : ℚ
  char_margin : ℚ
  line_margin : ℚ
  word_margin : ℚ
  boxes_flow : BoxesFlow
  detect_vertical : Bool
  all_texts : Bool

/-- `LAParams.__init__` (miner.py lines 235-253): store the parameters,
then `_validate`, which can only raise about `boxes_flow`. -/
def mkLAParams (lo cm lm wm : ℚ) (bf : BoxesFlow) (dv at_ : Bool) :
    Except LAParamsError LAParams :=
  match validate_boxes_flow bf with
  | Except.ok _ => Except.ok ⟨lo, cm, lm, wm, bf, dv, at_⟩
  | Except.error e => Except.error e

/-- Default parameters (miner.py lines 237-243), `boxes_flow = 0.5`. -/
def defaultParams : LAParams :=
  ⟨1/2, 2, 1/2, 1/10, BoxesFlow.num (1/2), false, false⟩

/-- An element of a text line: an `LTChar` (here reduced to its bounding
box) or a synthetic `LTAnno` glue string. -/
inductive LineElem where
  | chr (bb : BBox)
  | anno (s : String)
deriving DecidableEq, Repr

/-- State of a text line under construction: `LTTextLineHorizontal` or
`LTTextLineVertical` (miner.py lines 640-653 and 703-716).  `far` is the
running far edge `_x1` (horizontal) resp. `_y0` (vertical). -/
structure TLine where
  vertical : Bool
  wordMargin : ℚ
  far : ℚ
  objs : List LineElem
deriving DecidableEq, Repr

/-- `LTTextLineHorizontal.add` / `LTTextLineVertical.add`
(miner.py lines 647-653 and 710-716): insert a word-space `LTAnno " "`
before the new character when the gap exceeds the word margin (Python's
`if ... and self.word_margin:` is a truthiness test, i.e. `word_margin ≠ 0`),
then update the far edge and append the character. -/
def TLine.add (l : TLine) (c : BBox) : TLine :=
  if l.vertical then
    ⟨l.vertical, l.wordMargin, c.y0,
      l.objs ++
        (if l.wordMargin ≠ 0 ∧ c.y1 + l.wordMargin * qmax c.width c.height < l.far then
          [LineElem.anno " ", LineElem.chr c]
        else [LineElem.chr c])⟩
  else
    ⟨l.vertical, l.wordMargin, c.x1,
      l.objs ++
        (if l.wordMargin ≠ 0 ∧ l.far < c.x0 - l.wordMargin * qmax c.width c.height then
          [LineElem.anno " ", LineElem.chr c]
        else [LineElem.chr c])⟩

/-- A fresh `LTTextLineHorizontal` (miner.py lines 641-643): `_x1` starts
at `INT32_MAX`. -/
def newHLine (wm : ℚ) : TLine := ⟨false, wm, INT32_MAX, []⟩

/-- A fresh `LTTextLineVertical` (miner.py lines 704-706): `_y0` starts at
`INT32_MIN`. -/
def newVLine (wm : ℚ) : TLine := ⟨true, wm, INT32_MIN, []⟩

/-- The characters contained in a line (glue elements dropped). -/
def TLine.chars (l : TLine) : List BBox :=
  l.objs.filterMap fun e =>
    match e with
    | LineElem.chr b => some b
    | LineElem.anno _ => none

/-- `halign` from `LTLayoutContainer.group_objects` (miner.py lines 864-870). -/
def halign (p : LAParams) (a b : BBox) : Bool :=
  is_voverlap a b
    && decide (qmin a.height b.height * p.line_overlap < voverlap a b)
    && decide (hdistance a b < qmax a.width b.width * p.char_margin)

/-- `valign` from `LTLayoutContainer.group_objects` (miner.py lines 886-893). -/
def valign (p : LAParams) (a b : BBox) : Bool :=
  p.detect_vertical
    && is_hoverlap a b
    && decide (qmin a.width b.width * p.line_overlap < hoverlap a b)
    && decide (vdistance a b < qmax a.height b.height * p.char_margin)

/-- One step of the `group_objects` loop body (miner.py lines 895-914), for
the consecutive pair `(obj0, obj1)` and the currently open line.  Returns
the lines emitted at this step and the open line afterwards. -/
def groupStep (p : LAParams) (obj0 : BBox) (line : Option TLine) (obj1 : BBox) :
    List TLine × Option TLine :=
  match line with
  | some l =>
      if (halign p obj0 obj1 && !l.vertical) || (valign p obj0 obj1 && l.vertical) then
        ([], some (l.add obj1))
      else ([l], none)
  | none =>
      if valign p obj0 obj1 && !halign p obj0 obj1 then
        ([], some (((newVLine p.word_margin).add obj0).add obj1))
      else if halign p obj0 obj1 && !valign p obj0 obj1 then
        ([], some (((newHLine p.word_margin).add obj0).add obj1))
      else ([(newHLine p.word_margin).add obj0], none)

/-- The tail of `group_objects` (miner.py lines 845-920): fold `groupStep`
over the remaining objects; at the end of input flush the open line, or
wrap the final object in a fresh horizontal line if none is open. -/
def groupAux (p : LAParams) : BBox → Option TLine → List BBox → List TLine
  | obj0, line, [] =>
      (match line with
       | some l => [l]
       | none => [(newHLine p.word_margin).add obj0])
  | obj0, line, obj1 :: rest =>
      let s := groupStep p obj0 line obj1
      s.1 ++ groupAux p obj1 s.2 rest

/-- `LTLayoutContainer.group_objects` (miner.py lines 845-920).  On the
empty input the Python generator would fail an assertion; `analyze` only
calls it on non-empty input. -/
def group_objects (p : LAParams) : List BBox → List TLine
  | [] => []
  | c :: cs => groupAux p c none cs

/-- Default parameters but with `detect_vertical = True`, used for
concrete scenarios that exercise the vertical-alignment branches. -/
def dvParams : LAParams :=
  ⟨1/2, 2, 1/2, 1/10, BoxesFlow.num (1/2), true, false⟩

/-- A concrete character box at the origin. -/
def vChar1 : BBox := ⟨0, 0, 1, 1⟩

/-- A concrete character box to the right of `vChar1` (horizontally
aligned with it under default parameters). -/
def vChar2 : BBox := ⟨3/2, 0, 5/2, 1⟩

/-- A concrete character box below `vChar2` (vertically aligned with it
under `dvParams`, but not horizontally aligned). -/
def vChar3 : BBox := ⟨3/2, -2, 5/2, -1⟩

/-- The open horizontal line containing `vChar1` and `vChar2`. -/
def vLine12 : TLine := ((newHLine dvParams.word_margin).add vChar1).add vChar2

/-- Python `int(x)`: truncation toward zero, exactly `Int.tdiv` of the
numerator by the denominator of a reduced fraction. -/
def pytrunc (q : ℚ) : ℤ := Int.tdiv q.num q.den

/-- Integers in the half-open interval `[lo, hi)` in ascending order
(Python `range(lo, hi)`). -/
def intRange (lo hi : ℤ) : List ℤ :=
  (List.range (hi - lo).toNat).map fun i : ℕ => lo + (i : ℤ)

/-- `drange` (miner.py lines 99-101):
`range(int(v0) // d, int(v1 + d) // d)`; Python `//` on ints is floor
division, `Int.fdiv`. -/
def drangeL (v0 v1 : ℚ) (d : ℤ) : List ℤ :=
  intRange ((pytrunc v0).fdiv d) ((pytrunc (v1 + (d : ℚ))).fdiv d)

/-- `Plane._getrange` (miner.py lines 141-151): the grid cells `(gx, gy)`
of a rect, clipped to the plane bounds `P`; a rect that does not overlap
the bounds yields nothing.  The cells are produced with `gy` in the outer
loop, as in the source. -/
def getrangeL (P : BBox) (d : ℤ) (r : BBox) : List (ℤ × ℤ) :=
  if r.x1 ≤ P.x0 ∨ P.x1 ≤ r.x0 ∨ r.y1 ≤ P.y0 ∨ P.y1 ≤ r.y0 then []
  else
    (drangeL (qmax P.y0 r.y0) (qmin P.y1 r.y1) d).flatMap fun gy =>
      (drangeL (qmax P.x0 r.x0) (qmin P.x1 r.x1) d).map fun gx => (gx, gy)

/-- The contents of grid cell `k` of a `Plane` whose objects were added in
the order of `seq` and from which `removed` were removed: `Plane.add`
appends an object to every cell of its bbox, and `Plane.remove` deletes
it again, so a cell holds the live objects whose bbox covers it, in
insertion order. -/
def cellObjs [DecidableEq α] (bbF : α → BBox) (P : BBox) (d : ℤ)
    (seq removed : List α) (k : ℤ × ℤ) : List α :=
  seq.filter fun o => !removed.contains o && (getrangeL P d (bbF o)).contains k

/-- Helper for `dedupFirst`. -/
def dedupFirstAux [DecidableEq α] : List α → List α → List α
  | _, [] => []
  | seen, a :: as =>
      if a ∈ seen then dedupFirstAux seen as else a :: dedupFirstAux (a :: seen) as

/-- Keep only the first occurrence of every element: the `done`-set
pattern of `Plane.find` and the `uniq` helper (miner.py lines 77-84). -/
def dedupFirst [DecidableEq α] (l : List α) : List α := dedupFirstAux [] l

/-- The strict intersection test of `Plane.find` (miner.py line 189): an
object is skipped iff it lies entirely to one side of the query rect,
where touching edges already count as "to one side". -/
def strictIntersect (b r : BBox) : Bool :=
  !(decide (b.x1 ≤ r.x0) || decide (r.x1 ≤ b.x0) || decide (b.y1 ≤ r.y0) ||
      decide (r.y1 ≤ b.y0))

/-- `Plane.find` (miner.py lines 178-191): scan the cells of the query
rect, deduplicate objects via the `done` set, and yield those passing the
strict intersection test. -/
def planeFind [DecidableEq α] (bbF : α → BBox) (P : BBox) (d : ℤ)
    (seq removed : List α) (r : BBox) : List α :=
  (dedupFirst ((getrangeL P d r).flatMap (cellObjs bbF P d seq removed))).filter
    fun o => strictIntersect (bbF o) r

/-- A text line as consumed by `group_textlines`: its orientation class
(`LTTextLineVertical` or not) and its bounding box.  Lines are referred to
by their index in the input list, which models Python object identity
(each `LTTextLine` object is a distinct dict key). -/
structure LineG where
  vertical : Bool
  bb : BBox
deriving DecidableEq, Repr

instance : Inhabited LineG := ⟨⟨false, ⟨0, 0, 0, 0⟩⟩⟩

/-- The bounding box of line `j`. -/
def lineBB (lines : List LineG) (j : ℕ) : BBox := (lines.getD j default).bb

/-- Whether line `j` is an `LTTextLineVertical`. -/
def lineVert (lines : List LineG) (j : ℕ) : Bool := (lines.getD j default).vertical

/-- The query window of `LTTextLineHorizontal.find_neighbors` (miner.py
line 668): `(x0, y0 - d, x1, y1 + d)`. -/
def hWindow (b : BBox) (d : ℚ) : BBox := ⟨b.x0, b.y0 - d, b.x1, b.y1 + d⟩

/-- The query window of `LTTextLineVertical.find_neighbors` (miner.py
line 731): `(x0 - d, y0, x1 + d, y1)`. -/
def vWindow (b : BBox) (d : ℚ) : BBox := ⟨b.x0 - d, b.y0, b.x1 + d, b.y1⟩

/-- The filter of `LTTextLineHorizontal.find_neighbors` (miner.py lines
669-681): same class, same height within `d`, and left-, right- or
centrally-aligned within `d` (miner.py lines 683-700). -/
def hAlignFilter (lines : List LineG) (self : BBox) (d : ℚ) (j : ℕ) : Bool :=
  !lineVert lines j
    && decide (qabs ((lineBB lines j).height - self.height) ≤ d)
    && (decide (qabs ((lineBB lines j).x0 - self.x0) ≤ d)
        || decide (qabs ((lineBB lines j).x1 - self.x1) ≤ d)
        || decide (qabs (((lineBB lines j).x0 + (lineBB lines j).x1) / 2 -
            (self.x0 + self.x1) / 2) ≤ d))

/-- The filter of `LTTextLineVertical.find_neighbors` (miner.py lines
732-744): same class, same width within `d`, and lower-, upper- or
centrally-aligned within `d` (miner.py lines 746-763). -/
def vAlignFilter (lines : List LineG) (self : BBox) (d : ℚ) (j : ℕ) : Bool :=
  lineVert lines j
    && decide (qabs ((lineBB lines j).width - self.width) ≤ d)
    && (decide (qabs ((lineBB lines j).y0 - self.y0) ≤ d)
        || decide (qabs ((lineBB lines j).y1 - self.y1) ≤ d)
        || decide (qabs (((lineBB lines j).y0 + (lineBB lines j).y1) / 2 -
            (self.y0 + self.y1) / 2) ≤ d))

/-- `find_neighbors` of line `i` (miner.py lines 655-681 and 718-744) on
the plane that `group_textlines` fills with all input lines before the
loop (miner.py lines 928-929); the plane is never mutated afterwards, so
it is the static grid over `List.range lines.length`. -/
def neighborsOf (lines : List LineG) (P : BBox) (ratio : ℚ) (i : ℕ) : List ℕ :=
  if lineVert lines i then
    (planeFind (lineBB lines) P 50 (List.range lines.length) []
        (vWindow (lineBB lines i) (ratio * (lineBB lines i).width))).filter
      (vAlignFilter lines (lineBB lines i) (ratio * (lineBB lines i).width))
  else
    (planeFind (lineBB lines) P 50 (List.range lines.length) []
        (hWindow (lineBB lines i) (ratio * (lineBB lines i).height))).filter
      (hAlignFilter lines (lineBB lines i) (ratio * (lineBB lines i).height))

/-- State of the `group_textlines` loop (miner.py lines 930-944): the
`boxes` dict mapping a line to the box currently holding it, and the
`_objs` member lists of all boxes ever created (a box is identified by its
creation index). -/
structure GTState where
  mapping : ℕ → Option ℕ
  store : List (List ℕ)

/-- The neighbor loop of one `group_textlines` iteration (miner.py lines
933-937): append each neighbor to `members`; when the neighbor is a key
of `boxes`, pop it and append that box's whole member list. -/
def collectGo (store : List (List ℕ)) :
    List ℕ → List ℕ → (ℕ → Option ℕ) → List ℕ × (ℕ → Option ℕ)
  | [], members, m => (members, m)
  | o :: rest, members, m =>
      match m o with
      | some b =>
          collectGo store rest (members ++ o :: store.getD b [])
            fun x => if x = o then none else m x
      | none => collectGo store rest (members ++ [o]) m

/-- One iteration of the `group_textlines` loop for line `i` (miner.py
lines 931-944): collect members, create a fresh box holding
`uniq(members)` (`uniq` keeps first occurrences, miner.py lines 77-84),
and point every member at the new box. -/
def gtStep (N : ℕ → List ℕ) (st : GTState) (i : ℕ) : GTState :=
  ⟨fun x =>
      if x ∈ dedupFirst (collectGo st.store (N i) [i] st.mapping).1 then
        some st.store.length
      else (collectGo st.store (N i) [i] st.mapping).2 x,
    st.store ++ [dedupFirst (collectGo st.store (N i) [i] st.mapping).1]⟩

/-- The whole `group_textlines` grouping loop over all lines in input
order. -/
def runGTL (N : ℕ → List ℕ) (n : ℕ) : GTState :=
  (List.range n).foldl (gtStep N) ⟨fun _ => none, []⟩

/-- `LTExpandableContainer` bbox growth (miner.py lines 578-593): the
bbox of a box is the fold of its members' bboxes starting from the
`INT32` sentinels. -/
def bbUnion (a b : BBox) : BBox :=
  ⟨qmin a.x0 b.x0, qmin a.y0 b.y0, qmax a.x1 b.x1, qmax a.y1 b.y1⟩

/-- The bbox an `LTTextBox` ends up with after its members are added. -/
def foldBBox (bbs : List BBox) : BBox :=
  bbs.foldl bbUnion ⟨INT32_MAX, INT32_MAX, INT32_MIN, INT32_MIN⟩

/-- `LTComponent.is_empty` of a text box built from the given member
lines (`LTTextBox` does not override `is_empty`, so only the geometric
test `width <= 0 or height <= 0` applies, miner.py lines 326-327). -/
def boxIsEmpty (lines : List LineG) (mem : List ℕ) : Bool :=
  decide ((foldBBox (mem.map (lineBB lines))).width ≤ 0) ||
    decide ((foldBBox (mem.map (lineBB lines))).height ≤ 0)

/-- The final yield loop of `group_textlines` (miner.py lines 945-954):
walk the lines in input order, look up each line's box, skip boxes
already yielded (`done`), and yield the non-empty ones. -/
def yieldGo (lines : List LineG) (st : GTState) :
    List ℕ → List ℕ → List (List ℕ)
  | [], _ => []
  | i :: rest, doneB =>
      match st.mapping i with
      | Option.none => yieldGo lines st rest doneB
      | Option.some b =>
          if b ∈ doneB then yieldGo lines st rest doneB
          else if boxIsEmpty lines (st.store.getD b []) then
            yieldGo lines st rest (doneB ++ [b])
          else (st.store.getD b []) :: yieldGo lines st rest (doneB ++ [b])

/-- `LTLayoutContainer.group_textlines` (miner.py lines 922-954), with
boxes represented by their member lists of line indices. -/
def group_textlines (lines : List LineG) (P : BBox) (ratio : ℚ) :
    List (List ℕ) :=
  yieldGo lines (runGTL (neighborsOf lines P ratio) lines.length)
    (List.range lines.length) []

/-- Invariant of the `group_textlines` loop after the first `k` of `n`
lines have been processed: every mapped line is a member of its box; all
members of a live box (one some line maps to) map to that box; processed
lines are mapped; mapped lines are input lines that are processed or are
their own neighbor (by `neighborsOf_self_mem` below, any line that was
ever somebody's neighbor finds itself); box member lists hold no
duplicates. -/
def GTInv (N : ℕ → List ℕ) (n k : ℕ) (st : GTState) : Prop :=
  (∀ L B, st.mapping L = some B → B < st.store.length ∧ L ∈ st.store.getD B []) ∧
  (∀ B Lp L, st.mapping Lp = some B → L ∈ st.store.getD B [] →
    st.mapping L = some B) ∧
  (∀ i, i < k → st.mapping i ≠ none) ∧
  (∀ L, st.mapping L ≠ none → L < n ∧ (L < k ∨ L ∈ N L)) ∧
  (∀ B, (st.store.getD B []).Nodup)

/-- A text box as far as the `boxes_flow is None` ordering is concerned:
its orientation class (`LTTextBoxVertical` or not) and its bounding box. -/
structure TBoxG where
  vertical : Bool
  bb : BBox
deriving DecidableEq, Repr

/-- `getkey` from `LTLayoutContainer.analyze` (miner.py lines 1066-1070):
`(0, -box.x1, -box.y0)` for vertical boxes, `(1, -box.y0, box.x0)` for
the rest. -/
def getkey (b : TBoxG) : ℕ × ℚ × ℚ :=
  if b.vertical then (0, -b.bb.x1, -b.bb.y0) else (1, -b.bb.y0, b.bb.x0)

/-- Lexicographic comparison of Python key tuples. -/
def key3LE (u v : ℕ × ℚ × ℚ) : Prop :=
  u.1 < v.1 ∨ (u.1 = v.1 ∧ (u.2.1 < v.2.1 ∨ (u.2.1 = v.2.1 ∧ u.2.2 ≤ v.2.2)))

instance (u v : ℕ × ℚ × ℚ) : Decidable (key3LE u v) := by
  unfold key3LE
  infer_instance

/-- The ordering `textboxes.sort(key=getkey)` sorts by. -/
def getkeyLE (a b : TBoxG) : Prop := key3LE (getkey a) (getkey b)

instance : DecidableRel getkeyLE := fun a b => by
  unfold getkeyLE
  infer_instance

instance : IsTotal TBoxG getkeyLE := by
  constructor
  intro a b
  unfold getkeyLE key3LE
  rcases lt_trichotomy (getkey a).1 (getkey b).1 with h | h | h
  · exact Or.inl (Or.inl h)
  · rcases lt_trichotomy (getkey a).2.1 (getkey b).2.1 with h2 | h2 | h2
    · exact Or.inl (Or.inr ⟨h, Or.inl h2⟩)
    · rcases le_total (getkey a).2.2 (getkey b).2.2 with h3 | h3
      · exact Or.inl (Or.inr ⟨h, Or.inr ⟨h2, h3⟩⟩)
      · exact Or.inr (Or.inr ⟨h.symm, Or.inr ⟨h2.symm, h3⟩⟩)
    · exact Or.inr (Or.inr ⟨h.symm, Or.inl h2⟩)
  · exact Or.inr (Or.inl h)

instance : IsTrans TBoxG getkeyLE := by
  constructor
  intro a b c hab hbc
  unfold getkeyLE key3LE at hab hbc ⊢
  rcases hab with h1 | ⟨e1, h1⟩ <;> rcases hbc with h2 | ⟨e2, h2⟩
  · exact Or.inl (h1.trans h2)
  · exact Or.inl (e2 ▸ h1)
  · exact Or.inl (e1 ▸ h2)
  · refine Or.inr ⟨e1.trans e2, ?_⟩
    rcases h1 with h1 | ⟨f1, h1⟩ <;> rcases h2 with h2 | ⟨f2, h2⟩
    · exact Or.inl (h1.trans h2)
    · exact Or.inl (f2 ▸ h1)
    · exact Or.inl (f1 ▸ h2)
    · exact Or.inr ⟨f1.trans f2, h1.trans h2⟩

/-- The `textboxes.sort(key=getkey)` call in `LTLayoutContainer.analyze`
(miner.py line 1072), taken when `laparams.boxes_flow is None`.  Python's
`list.sort` is a stable ascending sort by the key; `insertionSort` with
the key order, inserting before the first element that is not strictly
smaller, computes exactly that stable result. -/
def sortTextboxesFlowNone (boxes : List TBoxG) : List TBoxG :=
  List.insertionSort getkeyLE boxes

/-- An element handled by `group_textboxes` (miner.py lines 956-1047): an
input `LTTextBox` (referred to by its index in the input list) or an
`LTTextGroup` created by a merge, holding its class flag (`LTTextGroupTBRL`
or `LTTextGroupLRTB`), its creation number and the two merged members
(miner.py lines 1029-1035). -/
inductive GObj where
  | box (i : ℕ)
  | group (tbrl : Bool) (g : ℕ) (a b : GObj)
deriving DecidableEq, Repr

/-- Bounding box of an element: the input bbox for a box; for a group,
the `LTExpandableContainer` fold of its two members' bboxes from the
`INT32` sentinels (miner.py lines 578-593 and 809-812). -/
def gbbox (boxes : ℕ → BBox) : GObj → BBox
  | GObj.box i => boxes i
  | GObj.group _ _ a b => foldBBox [gbbox boxes a, gbbox boxes b]

/-- Whether an element is `LTTextBoxVertical` or `LTTextGroupTBRL`
(miner.py lines 1029-1032): input flag for boxes, class flag for groups. -/
def gvert (vflags : ℕ → Bool) : GObj → Bool
  | GObj.box i => vflags i
  | GObj.group t _ _ _ => t

/-- Python `id()` of an element: an arbitrary per-run injection, `ident`
for the input boxes and `gident` (indexed by creation number) for the
groups. -/
def objId (ident gident : ℕ → ℕ) : GObj → ℕ
  | GObj.box i => ident i
  | GObj.group _ g _ _ => gident g

/-- The `dist` function of `group_textboxes` (miner.py lines 981-1001):
the area of the bounding rectangle of the two objects less their own
areas. -/
def gdist (boxes : ℕ → BBox) (o1 o2 : GObj) : ℚ :=
  (qmax (gbbox boxes o1).x1 (gbbox boxes o2).x1 -
      qmin (gbbox boxes o1).x0 (gbbox boxes o2).x0) *
    (qmax (gbbox boxes o1).y1 (gbbox boxes o2).y1 -
      qmin (gbbox boxes o1).y0 (gbbox boxes o2).y0) -
    (gbbox boxes o1).width * (gbbox boxes o1).height -
    (gbbox boxes o2).width * (gbbox boxes o2).height

/-- A heap entry `(skip_isany, d, id1, id2, obj1, obj2)` (miner.py lines
1012 and 1017). -/
structure HEntry where
  flag : Bool
  d : ℚ
  id1 : ℕ
  id2 : ℕ
  o1 : GObj
  o2 : GObj
deriving DecidableEq, Repr

/-- Python tuple comparison of two heap entries on the first four
components; the trailing object components are never compared because the
`(id1, id2)` pairs of distinct entries differ. -/
def hkeyLT (e f : HEntry) : Bool :=
  (!e.flag && f.flag) ||
    (e.flag == f.flag &&
      (decide (e.d < f.d) ||
        (decide (e.d = f.d) &&
          (decide (e.id1 < f.id1) ||
            (decide (e.id1 = f.id1) && decide (e.id2 < f.id2))))))

/-- The least element of the heap: what `heapq.heappop` removes (miner.py
line 1023). -/
def heapMin : List HEntry → Option HEntry
  | [] => none
  | e :: es => some (es.foldl (fun m x => if hkeyLT x m then x else m) e)

/-- State of the `group_textboxes` loop: the heap, the plane's insertion
sequence (`Plane._seq`, which `remove` never shrinks), the removed
objects (complement of `Plane._objs`), the `done` id set and the number
of groups created so far. -/
structure TBState where
  heap : List HEntry
  seq : List GObj
  removed : List GObj
  doneIds : List ℕ
  gcount : ℕ
deriving Repr

/-- The live objects of the plane in iteration order (`Plane.__iter__`,
miner.py lines 132-133). -/
def tbLive (st : TBState) : List GObj :=
  st.seq.filter fun o => !st.removed.contains o

/-- `isany(obj1, obj2)` (miner.py lines 1003-1010): the objects the plane
finds in the bounding rectangle of the pair, less the pair itself. -/
def isanyModel (boxes : ℕ → BBox) (P : BBox) (st : TBState)
    (o1 o2 : GObj) : List GObj :=
  (planeFind (gbbox boxes) P 50 st.seq st.removed
      ⟨qmin (gbbox boxes o1).x0 (gbbox boxes o2).x0,
        qmin (gbbox boxes o1).y0 (gbbox boxes o2).y0,
        qmax (gbbox boxes o1).x1 (gbbox boxes o2).x1,
        qmax (gbbox boxes o1).y1 (gbbox boxes o2).y1⟩).filter
    fun o => !(o == o1 || o == o2)

/-- The body of one `group_textboxes` iteration on the popped entry `e`
(miner.py lines 1024-1045): drop it if either id is done; re-push it with
the veto flag set if it is unflagged and `isany` is non-empty; otherwise
merge the pair into a new group, mark both ids done, push the distances
from the group to every other live object and place the group on the
plane. -/
def tbPop (boxes : ℕ → BBox) (vflags : ℕ → Bool) (ident gident : ℕ → ℕ)
    (P : BBox) (st : TBState) (e : HEntry) : TBState :=
  if e.id1 ∈ st.doneIds ∨ e.id2 ∈ st.doneIds then
        ⟨st.heap.erase e, st.seq, st.removed, st.doneIds, st.gcount⟩
      else if !e.flag && !(isanyModel boxes P st e.o1 e.o2).isEmpty then
        ⟨st.heap.erase e ++ [⟨true, e.d, e.id1, e.id2, e.o1, e.o2⟩],
          st.seq, st.removed, st.doneIds, st.gcount⟩
      else
        ⟨st.heap.erase e ++
            ((st.seq.filter fun o =>
                !(st.removed ++ [e.o1, e.o2]).contains o).map fun other =>
              ⟨false,
                gdist boxes
                  (GObj.group (gvert vflags e.o1 || gvert vflags e.o2)
                    st.gcount e.o1 e.o2) other,
                gident st.gcount, objId ident gident other,
                GObj.group (gvert vflags e.o1 || gvert vflags e.o2)
                  st.gcount e.o1 e.o2, other⟩),
          st.seq ++
            [GObj.group (gvert vflags e.o1 || gvert vflags e.o2)
              st.gcount e.o1 e.o2],
          st.removed ++ [e.o1, e.o2],
          st.doneIds ++ [e.id1, e.id2],
          st.gcount + 1⟩

/-- One iteration of the loop, starting from the `heappop` (miner.py line
1023). -/
def tbStep (boxes : ℕ → BBox) (vflags : ℕ → Bool) (ident gident : ℕ → ℕ)
    (P : BBox) (st : TBState) : TBState :=
  match heapMin st.heap with
  | none => st
  | some e => tbPop boxes vflags ident gident P st e

/-- Run the loop for at most `fuel` iterations, stopping when the heap is
exhausted (`while len(dists) > 0`, miner.py line 1022). -/
def tbRun (boxes : ℕ → BBox) (vflags : ℕ → Bool) (ident gident : ℕ → ℕ)
    (P : BBox) : ℕ → TBState → TBState
  | 0, st => st
  | Nat.succ f, st =>
      match heapMin st.heap with
      | none => st
      | some _ => tbRun boxes vflags ident gident P f
          (tbStep boxes vflags ident gident P st)

/-- The initial state (miner.py lines 1012-1021): all unordered pairs
`i < j` of input boxes with their distances, the plane filled with the
boxes, nothing removed or done. -/
def tbInit (boxes : ℕ → BBox) (ident : ℕ → ℕ) (n : ℕ) : TBState :=
  ⟨(List.range n).flatMap fun i =>
      ((List.range n).filter fun j => decide (i < j)).map fun j =>
        ⟨false, gdist boxes (GObj.box i) (GObj.box j), ident i, ident j,
          GObj.box i, GObj.box j⟩,
    (List.range n).map GObj.box, [], [], 0⟩

/-- `list(g for g in plane)` (miner.py line 1047): the live objects in
insertion order. -/
def tbResult (st : TBState) : List GObj := tbLive st

/-- `LTLayoutContainer.group_textboxes` on `n` input boxes with bboxes
`boxes`, verticality flags `vflags`, id assignment `(ident, gident)` and
page bbox `P`, run with enough fuel. -/
def group_textboxes_model (boxes : ℕ → BBox) (vflags : ℕ → Bool)
    (ident gident : ℕ → ℕ) (P : BBox) (n fuel : ℕ) : List GObj :=
  tbResult (tbRun boxes vflags ident gident P fuel (tbInit boxes ident n))

/-- Three boxes in a row that mutually veto: each pair's bounding union
strictly contains part of the third box. -/
def cBoxes3 : ℕ → BBox := fun i =>
  if i = 0 then ⟨0, 0, 10, 10⟩
  else if i = 1 then ⟨4, 0, 14, 10⟩
  else if i = 2 then ⟨9, 0, 19, 10⟩
  else ⟨0, 0, 0, 0⟩

/-- Three well-separated boxes with a distance tie between the pairs
`(0, 1)` and `(1, 2)`. -/
def sepBoxes3 : ℕ → BBox := fun i =>
  if i = 0 then ⟨0, 0, 10, 10⟩
  else if i = 1 then ⟨20, 0, 30, 10⟩
  else if i = 2 then ⟨40, 0, 50, 10⟩
  else ⟨0, 0, 0, 0⟩

/-- Rename the ids inside a heap entry. -/
def mapEntry (f : ℕ → ℕ) (e : HEntry) : HEntry :=
  ⟨e.flag, e.d, f e.id1, f e.id2, e.o1, e.o2⟩

/-- Rename all ids of a `group_textboxes` state. -/
def mapState (f : ℕ → ℕ) (st : TBState) : TBState :=
  ⟨st.heap.map (mapEntry f), st.seq, st.removed, st.doneIds.map f, st.gcount⟩

/-! ## Theorems -/

theorem qmin_eq (a b : ℚ) : qmin a b = min a b := (min_def a b).symm

theorem qmax_eq (a b : ℚ) : qmax a b = max a b := (max_def a b).symm

theorem qabs_eq (a : ℚ) : qabs a = |a| := by
  unfold qabs
  by_cases h : 0 ≤ a
  · rw [if_pos h, abs_of_nonneg h]
  · rw [if_neg h, abs_of_neg (lt_of_not_ge h)]

theorem is_hoverlap_iff (a b : BBox) :
    is_hoverlap a b = true ↔ (b.x0 ≤ a.x1 ∧ a.x0 ≤ b.x1) := by
  simp [is_hoverlap]

theorem is_voverlap_iff (a b : BBox) :
    is_voverlap a b = true ↔ (b.y0 ≤ a.y1 ∧ a.y0 ≤ b.y1) := by
  simp [is_voverlap]

theorem chars_add (l : TLine) (c : BBox) : (l.add c).chars = l.chars ++ [c] := by
  unfold TLine.add TLine.chars
  split <;> split <;> simp

theorem chars_newHLine (wm : ℚ) : (newHLine wm).chars = [] := rfl

theorem chars_newVLine (wm : ℚ) : (newVLine wm).chars = [] := rfl

theorem vertical_add (l : TLine) (c : BBox) : (l.add c).vertical = l.vertical := by
  unfold TLine.add
  split <;> rfl

theorem groupAux_chars (p : LAParams) :
    ∀ (cs : List BBox) (obj0 : BBox) (line : Option TLine),
      ((groupAux p obj0 line cs).map TLine.chars).flatten =
        (match line with
         | some l => l.chars
         | none => [obj0]) ++ cs := by
  intro cs
  induction cs with
  | nil =>
      intro obj0 line
      cases line with
      | some l => simp [groupAux]
      | none => simp [groupAux, chars_add, chars_newHLine]
  | cons obj1 rest ih =>
      intro obj0 line
      cases line with
      | some l =>
          by_cases h : ((halign p obj0 obj1 && !l.vertical) || (valign p obj0 obj1 && l.vertical)) = true
          · simp only [groupAux, groupStep, h, if_true]
            simp [ih, chars_add]
          · simp only [groupAux, groupStep, Bool.not_eq_true] at h ⊢
            rw [h]
            simp [ih]
      | none =>
          by_cases h1 : (valign p obj0 obj1 && !halign p obj0 obj1) = true
          · simp only [groupAux, groupStep, h1, if_true]
            simp [ih, chars_add, chars_newVLine]
          · by_cases h2 : (halign p obj0 obj1 && !valign p obj0 obj1) = true
            · simp only [groupAux, groupStep, Bool.not_eq_true] at h1 ⊢
              rw [h1]
              simp only [h2, if_true]
              simp [ih, chars_add, chars_newHLine]
            · simp only [groupAux, groupStep, Bool.not_eq_true] at h1 h2 ⊢
              rw [h1, h2]
              simp [ih, chars_add, chars_newHLine]

/-- Claim C5, counterexample: when one x-interval contains the other,
`hoverlap` does not return the length of the intersection of the
x-intervals.  For `a = (0,0,10,10)` and `b = (2,0,3,10)` the intervals are
`[0,10]` and `[2,3]`: they overlap, the intersection has length `1`, but
`hoverlap` returns `min |0-3| |10-2| = 3`. -/
theorem hoverlap_containment_counterexample :
    is_hoverlap ⟨0, 0, 10, 10⟩ ⟨2, 0, 3, 10⟩ = true ∧
    hoverlap ⟨0, 0, 10, 10⟩ ⟨2, 0, 3, 10⟩ = 3 ∧
    min (⟨0, 0, 10, 10⟩ : BBox).x1 (⟨2, 0, 3, 10⟩ : BBox).x1 -
        max (⟨0, 0, 10, 10⟩ : BBox).x0 (⟨2, 0, 3, 10⟩ : BBox).x0 = 1 ∧
    (3 : ℚ) ≠ 1 := by
  refine ⟨by with_unfolding_all decide, by with_unfolding_all decide, ?_, by norm_num⟩
  with_unfolding_all decide

/-- Claim C5, amended: `hoverlap a b` is `0` when the x-intervals do not
overlap, and otherwise equals `min |a.x0 - b.x1| |a.x1 - b.x0|`, which
coincides with the length of the intersection of the two x-intervals
whenever neither interval contains the other (and can exceed it under
containment); `voverlap` behaves symmetrically on the y-axis. -/
theorem hoverlap_voverlap_amount (a b : BBox) :
    (is_hoverlap a b = false → hoverlap a b = 0) ∧
    (is_hoverlap a b = true → hoverlap a b = min |a.x0 - b.x1| |a.x1 - b.x0|) ∧
    (is_hoverlap a b = true →
      ((a.x0 ≤ b.x0 ∧ a.x1 ≤ b.x1) ∨ (b.x0 ≤ a.x0 ∧ b.x1 ≤ a.x1)) →
      hoverlap a b = min a.x1 b.x1 - max a.x0 b.x0) ∧
    (is_voverlap a b = false → voverlap a b = 0) ∧
    (is_voverlap a b = true → voverlap a b = min |a.y0 - b.y1| |a.y1 - b.y0|) ∧
    (is_voverlap a b = true →
      ((a.y0 ≤ b.y0 ∧ a.y1 ≤ b.y1) ∨ (b.y0 ≤ a.y0 ∧ b.y1 ≤ a.y1)) →
      voverlap a b = min a.y1 b.y1 - max a.y0 b.y0) := by
  refine ⟨fun h => by simp [hoverlap, h], fun h => by simp [hoverlap, h, qmin_eq, qabs_eq],
    fun h hc => ?_, fun h => by simp [voverlap, h],
    fun h => by simp [voverlap, h, qmin_eq, qabs_eq], fun h hc => ?_⟩
  · rw [is_hoverlap_iff] at h
    obtain ⟨h1, h2⟩ := h
    rw [hoverlap, if_pos (by rw [is_hoverlap_iff]; exact ⟨h1, h2⟩), qmin_eq, qabs_eq, qabs_eq]
    rw [abs_of_nonpos (by linarith), abs_of_nonneg (by linarith)]
    rcases hc with ⟨hl, hr⟩ | ⟨hl, hr⟩
    · rw [min_eq_right (by linarith), min_eq_left hr, max_eq_right hl]
    · rw [min_eq_left (by linarith), min_eq_right hr, max_eq_left hl]
      ring
  · rw [is_voverlap_iff] at h
    obtain ⟨h1, h2⟩ := h
    rw [voverlap, if_pos (by rw [is_voverlap_iff]; exact ⟨h1, h2⟩), qmin_eq, qabs_eq, qabs_eq]
    rw [abs_of_nonpos (by linarith), abs_of_nonneg (by linarith)]
    rcases hc with ⟨hl, hr⟩ | ⟨hl, hr⟩
    · rw [min_eq_right (by linarith), min_eq_left hr, max_eq_right hl]
    · rw [min_eq_left (by linarith), min_eq_right hr, max_eq_left hl]
      ring

/-- Witness for the amended C5 theorem at a concrete overlapping,
non-containing pair: `a = [0,4]`, `b = [2,6]` on the x-axis overlap on
`[2,4]`, and `hoverlap` returns `2`. -/
theorem hoverlap_voverlap_amount_witness :
    is_hoverlap ⟨0, 0, 4, 1⟩ ⟨2, 0, 6, 1⟩ = true ∧
    hoverlap ⟨0, 0, 4, 1⟩ ⟨2, 0, 6, 1⟩ = 2 :=
  ⟨by with_unfolding_all decide,
    ((hoverlap_voverlap_amount ⟨0, 0, 4, 1⟩ ⟨2, 0, 6, 1⟩).2.2.1 (by with_unfolding_all decide)
      (Or.inl (by norm_num))).trans (by norm_num [min_def, max_def])⟩

/-- Claim C9: `LAParams` construction succeeds iff `boxes_flow` is the
`None` sentinel or a number in `[-1, 1]`; a non-numeric non-`None` value
raises `PDFTypeError` and a numeric value out of range raises
`PDFValueError`, from inside the constructor (`__init__` calls
`_validate`); `None`, `-1` and `+1` all succeed. -/
theorem laparams_validation :
    (∀ lo cm lm wm dv at_ bf,
      (∃ p, mkLAParams lo cm lm wm bf dv at_ = Except.ok p) ↔
        (bf = BoxesFlow.none ∨ ∃ q, bf = BoxesFlow.num q ∧ -1 ≤ q ∧ q ≤ 1)) ∧
    (∀ lo cm lm wm dv at_,
      mkLAParams lo cm lm wm BoxesFlow.nonNumeric dv at_ =
        Except.error LAParamsError.typeError) ∧
    (∀ lo cm lm wm dv at_ q, ¬(-1 ≤ q ∧ q ≤ 1) →
      mkLAParams lo cm lm wm (BoxesFlow.num q) dv at_ =
        Except.error LAParamsError.valueError) ∧
    (∃ p, mkLAParams (1/2) 2 (1/2) (1/10) BoxesFlow.none false false = Except.ok p) ∧
    (∃ p, mkLAParams (1/2) 2 (1/2) (1/10) (BoxesFlow.num (-1)) false false = Except.ok p) ∧
    (∃ p, mkLAParams (1/2) 2 (1/2) (1/10) (BoxesFlow.num 1) false false = Except.ok p) := by
  refine ⟨?_, ?_, ?_, ?_, ?_, ?_⟩
  · intro lo cm lm wm dv at_ bf
    constructor
    · rintro ⟨p, hp⟩
      cases bf with
      | none => exact Or.inl rfl
      | nonNumeric => simp [mkLAParams, validate_boxes_flow] at hp
      | num q =>
          refine Or.inr ⟨q, rfl, ?_⟩
          by_contra hq
          simp [mkLAParams, validate_boxes_flow, hq] at hp
    · rintro (rfl | ⟨q, rfl, hq⟩)
      · exact ⟨⟨lo, cm, lm, wm, BoxesFlow.none, dv, at_⟩, rfl⟩
      · exact ⟨⟨lo, cm, lm, wm, BoxesFlow.num q, dv, at_⟩,
          by simp [mkLAParams, validate_boxes_flow, hq]⟩
  · intro lo cm lm wm dv at_
    rfl
  · intro lo cm lm wm dv at_ q hq
    simp [mkLAParams, validate_boxes_flow, hq]
  · exact ⟨⟨1/2, 2, 1/2, 1/10, BoxesFlow.none, false, false⟩, rfl⟩
  · exact ⟨⟨1/2, 2, 1/2, 1/10, BoxesFlow.num (-1), false, false⟩,
      by norm_num [mkLAParams, validate_boxes_flow]⟩
  · exact ⟨⟨1/2, 2, 1/2, 1/10, BoxesFlow.num 1, false, false⟩,
      by norm_num [mkLAParams, validate_boxes_flow]⟩

/-- Witness for C9: constructing with `boxes_flow = 2` (out of range)
fails with a `PDFValueError`. -/
theorem laparams_validation_witness :
    ¬(-1 ≤ (2 : ℚ) ∧ (2 : ℚ) ≤ 1) ∧
    mkLAParams (1/2) 2 (1/2) (1/10) (BoxesFlow.num 2) false false =
      Except.error LAParamsError.valueError :=
  ⟨by norm_num,
    laparams_validation.2.2.1 (1/2) 2 (1/2) (1/10) false false 2 (by norm_num)⟩

/-- Claim C6, counterexample: the claim quantifies over the configured
`wordMargin`; at `word_margin = 0` the gap `g = 1` exceeds
`wordMargin·max(width,height) = 0`, yet no space glue is inserted, because
`LTTextLineHorizontal.add` guards glue insertion with the Python
truthiness test `if ... and self.word_margin:`. -/
theorem word_glue_zero_margin_counterexample :
    (⟨2, 0, 3, 1⟩ : BBox).x0 - (⟨0, 0, 1, 1⟩ : BBox).x1 >
        0 * max (⟨2, 0, 3, 1⟩ : BBox).width (⟨2, 0, 3, 1⟩ : BBox).height ∧
    (((newHLine 0).add ⟨0, 0, 1, 1⟩).add ⟨2, 0, 3, 1⟩).objs =
      [LineElem.chr ⟨0, 0, 1, 1⟩, LineElem.chr ⟨2, 0, 3, 1⟩] := by
  refine ⟨by with_unfolding_all decide, by with_unfolding_all decide⟩

/-- Claim C6, amended: for a horizontal text line with `wordMargin ≠ 0`
whose far edge is the previous character's right edge `prev.x1`, adding
`cur` inserts exactly one space glue before it iff the gap
`cur.x0 - prev.x1` strictly exceeds `wordMargin · max(cur.width,
cur.height)` (at `wordMargin = 0` glue insertion is disabled entirely). -/
theorem word_glue_insertion (st : TLine) (prev cur : BBox)
    (hv : st.vertical = false) (hwm : st.wordMargin ≠ 0) (hfar : st.far = prev.x1) :
    (st.add cur).objs =
      st.objs ++
        (if st.wordMargin * qmax cur.width cur.height < cur.x0 - prev.x1 then
          [LineElem.anno " ", LineElem.chr cur]
        else [LineElem.chr cur]) := by
  unfold TLine.add
  rw [hv]
  simp only [Bool.false_eq_true, if_false]
  congr 1
  by_cases h : st.wordMargin * qmax cur.width cur.height < cur.x0 - prev.x1
  · rw [if_pos ⟨hwm, by rw [hfar]; linarith⟩, if_pos h]
  · rw [if_neg ?_, if_neg h]
    rintro ⟨-, hlt⟩
    rw [hfar] at hlt
    exact h (by linarith)

/-- Witness for the amended C6 theorem: with the default
`word_margin = 0.1`, a gap of `1` between character boxes of size `1`
inserts a single space glue. -/
theorem word_glue_insertion_witness :
    ((1 : ℚ)/10 ≠ 0) ∧
    (((newHLine (1/10)).add ⟨0, 0, 1, 1⟩).add ⟨2, 0, 3, 1⟩).objs =
      [LineElem.chr ⟨0, 0, 1, 1⟩, LineElem.anno " ", LineElem.chr ⟨2, 0, 3, 1⟩] :=
  ⟨by norm_num,
    (word_glue_insertion ((newHLine (1/10)).add ⟨0, 0, 1, 1⟩) ⟨0, 0, 1, 1⟩ ⟨2, 0, 3, 1⟩
      (by with_unfolding_all decide) (by with_unfolding_all decide) (by with_unfolding_all decide)).trans (by with_unfolding_all decide)⟩

/-- Claim C4, counterexample: with vertical detection enabled, take an
open horizontal line `vLine12` (containing `vChar1, vChar2`) and a next
character `vChar3` for which `valign` holds and `halign` fails: the open
line is closed (emitted) even though an alignment (`valign`) holds,
refuting "closed exactly when neither halign nor valign holds"; the full
`group_objects` run on `[vChar1, vChar2, vChar3]` emits `vLine12` at that
step. -/
theorem group_objects_close_counterexample :
    valign dvParams vChar2 vChar3 = true ∧
    halign dvParams vChar2 vChar3 = false ∧
    groupStep dvParams vChar2 (some vLine12) vChar3 = ([vLine12], none) ∧
    group_objects dvParams [vChar1, vChar2, vChar3] =
      [vLine12, (newHLine dvParams.word_margin).add vChar3] := by
  refine ⟨by with_unfolding_all decide, by with_unfolding_all decide, by with_unfolding_all decide, by with_unfolding_all decide⟩

/-- Claim C4, amended: with an open line, the current character is
appended iff the line's orientation matches a satisfied alignment
(`halign` for a horizontal line, `valign` for a vertical one); the open
line is closed (emitted) exactly when no orientation-matching alignment
holds — in particular also when the mismatching alignment holds; with no
open line and exactly one of `halign`/`valign` satisfied, a new line of
the matching orientation containing `{prev, cur}` is opened. -/
theorem group_objects_branch_structure (p : LAParams) (a b : BBox) :
    (∀ l : TLine,
      ((halign p a b = true ∧ l.vertical = false) ∨
          (valign p a b = true ∧ l.vertical = true)) →
        groupStep p a (some l) b = ([], some (l.add b))) ∧
    (∀ l : TLine,
      ¬((halign p a b = true ∧ l.vertical = false) ∨
          (valign p a b = true ∧ l.vertical = true)) →
        groupStep p a (some l) b = ([l], none)) ∧
    (∀ l : TLine,
      groupStep p a (some l) b = ([l], none) →
        ¬((halign p a b = true ∧ l.vertical = false) ∨
            (valign p a b = true ∧ l.vertical = true))) ∧
    (valign p a b = true → halign p a b = false →
      groupStep p a none b = ([], some (((newVLine p.word_margin).add a).add b)) ∧
        (((newVLine p.word_margin).add a).add b).vertical = true ∧
        (((newVLine p.word_margin).add a).add b).chars = [a, b]) ∧
    (halign p a b = true → valign p a b = false →
      groupStep p a none b = ([], some (((newHLine p.word_margin).add a).add b)) ∧
        (((newHLine p.word_margin).add a).add b).vertical = false ∧
        (((newHLine p.word_margin).add a).add b).chars = [a, b]) := by
  have hcond : ∀ l : TLine,
      ((halign p a b && !l.vertical) || (valign p a b && l.vertical)) = true ↔
        ((halign p a b = true ∧ l.vertical = false) ∨
          (valign p a b = true ∧ l.vertical = true)) := by
    intro l
    simp [Bool.or_eq_true, Bool.and_eq_true, Bool.not_eq_true']
  refine ⟨?_, ?_, ?_, ?_, ?_⟩
  · intro l hl
    simp only [groupStep]
    rw [if_pos ((hcond l).mpr hl)]
  · intro l hl
    simp only [groupStep]
    rw [if_neg (fun hc => hl ((hcond l).mp hc))]
  · intro l heq
    intro hl
    simp only [groupStep] at heq
    rw [if_pos ((hcond l).mpr hl)] at heq
    simp at heq
  · intro hva hha
    refine ⟨?_, ?_, ?_⟩
    · simp only [groupStep]
      rw [if_pos (by simp [hva, hha])]
    · rw [vertical_add, vertical_add]
      rfl
    · rw [chars_add, chars_add, chars_newVLine]
      rfl
  · intro hha hva
    refine ⟨?_, ?_, ?_⟩
    · simp only [groupStep]
      rw [if_neg (by simp [hva]), if_pos (by simp [hva, hha])]
    · rw [vertical_add, vertical_add]
      rfl
    · rw [chars_add, chars_add, chars_newHLine]
      rfl

/-- Claim C7, counterexample: take the two horizontal text boxes
`A = (0, 90, 10, 100)` (top edge `100`, left edge `0`) and
`B = (0, 40, 10, 50)` (top edge `50`, left edge `0`) of the claim's
scenario.  With flow ordering disabled the code sorts `[A, B]` to
`[A, B]` (A first), not `[B, A]` as the claim states. -/
theorem flow_none_ordering_counterexample :
    sortTextboxesFlowNone [⟨false, ⟨0, 90, 10, 100⟩⟩, ⟨false, ⟨0, 40, 10, 50⟩⟩] =
      [⟨false, ⟨0, 90, 10, 100⟩⟩, ⟨false, ⟨0, 40, 10, 50⟩⟩] ∧
    sortTextboxesFlowNone [⟨false, ⟨0, 90, 10, 100⟩⟩, ⟨false, ⟨0, 40, 10, 50⟩⟩] ≠
      [⟨false, ⟨0, 40, 10, 50⟩⟩, ⟨false, ⟨0, 90, 10, 100⟩⟩] := by
  refine ⟨by with_unfolding_all decide, by with_unfolding_all decide⟩

/-- Claim C7, amended: with `boxes_flow = None`, `analyze` sorts text
boxes by the fixed positional key `getkey`: vertical boxes first, by
descending right edge (`x1`) then descending *bottom* edge (`y0`);
horizontal boxes second, by descending *bottom* edge (`y0`) then
ascending left edge (`x0`).  For the claim's boxes A (top 100, bottom 90)
and B (top 50, bottom 40) of equal height the output order is therefore A
before B. -/
theorem flow_none_ordering :
    (∀ boxes : List TBoxG,
      (sortTextboxesFlowNone boxes).Sorted getkeyLE ∧
        (sortTextboxesFlowNone boxes).Perm boxes) ∧
    (∀ a b : TBoxG, a.vertical = false → b.vertical = false →
      (getkeyLE a b ↔ (b.bb.y0 < a.bb.y0 ∨ (a.bb.y0 = b.bb.y0 ∧ a.bb.x0 ≤ b.bb.x0)))) ∧
    (∀ a b : TBoxG, a.vertical = true → b.vertical = true →
      (getkeyLE a b ↔ (b.bb.x1 < a.bb.x1 ∨ (a.bb.x1 = b.bb.x1 ∧ b.bb.y0 ≤ a.bb.y0)))) ∧
    (∀ a b : TBoxG, a.vertical = true → b.vertical = false →
      getkeyLE a b ∧ ¬getkeyLE b a) ∧
    sortTextboxesFlowNone [⟨false, ⟨0, 90, 10, 100⟩⟩, ⟨false, ⟨0, 40, 10, 50⟩⟩] =
      [⟨false, ⟨0, 90, 10, 100⟩⟩, ⟨false, ⟨0, 40, 10, 50⟩⟩] := by
  refine ⟨?_, ?_, ?_, ?_, by with_unfolding_all decide⟩
  · intro boxes
    exact ⟨List.sorted_insertionSort getkeyLE boxes, List.perm_insertionSort getkeyLE boxes⟩
  · intro a b hva hvb
    norm_num [getkeyLE, key3LE, getkey, hva, hvb]
  · intro a b hva hvb
    norm_num [getkeyLE, key3LE, getkey, hva, hvb]
  · intro a b hva hvb
    norm_num [getkeyLE, key3LE, getkey, hva, hvb]

theorem pytrunc_nonneg {q : ℚ} (h : 0 ≤ q) : pytrunc q = ⌊q⌋ := by
  unfold pytrunc
  rw [Int.tdiv_eq_ediv (Rat.num_nonneg.mpr h) (Int.natCast_nonneg _), Rat.floor_def]

theorem pytrunc_neg (q : ℚ) : pytrunc (-q) = -pytrunc q := by
  unfold pytrunc
  rw [Rat.neg_num, Rat.neg_den, Int.neg_tdiv]

theorem pytrunc_eq_neg_floor {q : ℚ} (h : q ≤ 0) : pytrunc q = -⌊-q⌋ := by
  have h1 : pytrunc (-q) = ⌊-q⌋ := pytrunc_nonneg (by linarith)
  have h2 := pytrunc_neg q
  omega

theorem pytrunc_mono {q r : ℚ} (h : q ≤ r) : pytrunc q ≤ pytrunc r := by
  by_cases hq : 0 ≤ q
  · rw [pytrunc_nonneg hq, pytrunc_nonneg (hq.trans h)]
    exact Int.floor_le_floor h
  · push_neg at hq
    by_cases hr : 0 ≤ r
    · rw [pytrunc_nonneg hr, pytrunc_eq_neg_floor hq.le]
      have h1 : 0 ≤ ⌊-q⌋ := Int.floor_nonneg.mpr (by linarith)
      have h2 : 0 ≤ ⌊r⌋ := Int.floor_nonneg.mpr hr
      omega
    · push_neg at hr
      rw [pytrunc_eq_neg_floor hq.le, pytrunc_eq_neg_floor hr.le]
      have := Int.floor_le_floor (neg_le_neg h)
      omega

theorem fdiv_mono {a b d : ℤ} (hd : 0 < d) (h : a ≤ b) : a.fdiv d ≤ b.fdiv d := by
  rw [Int.fdiv_eq_ediv _ hd.le, Int.fdiv_eq_ediv _ hd.le]
  exact Int.ediv_le_ediv hd h

theorem mem_intRange {k lo hi : ℤ} : k ∈ intRange lo hi ↔ lo ≤ k ∧ k < hi := by
  unfold intRange
  simp only [List.mem_map, List.mem_range]
  constructor
  · rintro ⟨i, hlt, rfl⟩
    have h1 := Int.natCast_nonneg i
    have h2 := Int.lt_toNat.mp hlt
    constructor <;> linarith
  · rintro ⟨h1, h2⟩
    refine ⟨(k - lo).toNat, ?_, ?_⟩
    · rw [Int.toNat_lt_toNat (by linarith)]
      linarith
    · rw [Int.toNat_of_nonneg (by linarith)]
      ring

theorem mem_drangeL {c : ℤ} {v0 v1 : ℚ} {d : ℤ} :
    c ∈ drangeL v0 v1 d ↔
      (pytrunc v0).fdiv d ≤ c ∧ c < (pytrunc (v1 + (d : ℚ))).fdiv d := by
  unfold drangeL
  exact mem_intRange

theorem drangeL_mono {v0 v1 v0n v1n : ℚ} {d : ℤ} (hd : 0 < d)
    (h0 : v0n ≤ v0) (h1 : v1 ≤ v1n) {c : ℤ} (hc : c ∈ drangeL v0 v1 d) :
    c ∈ drangeL v0n v1n d := by
  rw [mem_drangeL] at hc ⊢
  refine ⟨(fdiv_mono hd (pytrunc_mono h0)).trans hc.1,
    lt_of_lt_of_le hc.2 (fdiv_mono hd (pytrunc_mono (by linarith)))⟩

theorem drangeL_lower_mem {v0 v1 : ℚ} {d : ℤ} (hd : 0 < d) (h0 : 0 ≤ v0)
    (h01 : v0 ≤ v1) : (pytrunc v0).fdiv d ∈ drangeL v0 v1 d := by
  rw [mem_drangeL]
  refine ⟨le_refl _, ?_⟩
  have hvd : (0 : ℚ) ≤ v1 + (d : ℚ) := by
    have : (0 : ℚ) < (d : ℚ) := by exact_mod_cast hd
    linarith
  rw [pytrunc_nonneg h0, pytrunc_nonneg hvd, Int.floor_add_int v1 d]
  have hstep : (⌊v1⌋ + d).fdiv d = ⌊v1⌋.fdiv d + 1 := by
    rw [Int.fdiv_eq_ediv _ hd.le, Int.fdiv_eq_ediv _ hd.le]
    have := Int.add_mul_ediv_right ⌊v1⌋ 1 (by omega : d ≠ 0)
    simpa using this
  have hle : ⌊v0⌋.fdiv d ≤ ⌊v1⌋.fdiv d := fdiv_mono hd (Int.floor_le_floor h01)
  omega

theorem mem_getrangeL {P : BBox} {d : ℤ} {r : BBox} {k : ℤ × ℤ} :
    k ∈ getrangeL P d r ↔
      ¬(r.x1 ≤ P.x0 ∨ P.x1 ≤ r.x0 ∨ r.y1 ≤ P.y0 ∨ P.y1 ≤ r.y0) ∧
      k.1 ∈ drangeL (qmax P.x0 r.x0) (qmin P.x1 r.x1) d ∧
      k.2 ∈ drangeL (qmax P.y0 r.y0) (qmin P.y1 r.y1) d := by
  unfold getrangeL
  split
  · simp_all
  · simp only [List.mem_flatMap, List.mem_map]
    constructor
    · rintro ⟨gy, hgy, gx, hgx, rfl⟩
      exact ⟨by assumption, hgx, hgy⟩
    · rintro ⟨-, h1, h2⟩
      exact ⟨k.2, h2, k.1, h1, rfl⟩

theorem getrangeL_mono {P r rn : BBox} {d : ℤ} (hd : 0 < d)
    (hx0 : rn.x0 ≤ r.x0) (hx1 : r.x1 ≤ rn.x1) (hy0 : rn.y0 ≤ r.y0)
    (hy1 : r.y1 ≤ rn.y1) {k : ℤ × ℤ} (hk : k ∈ getrangeL P d r) :
    k ∈ getrangeL P d rn := by
  rw [mem_getrangeL] at hk ⊢
  obtain ⟨hout, h1, h2⟩ := hk
  push_neg at hout
  obtain ⟨o1, o2, o3, o4⟩ := hout
  refine ⟨by push_neg; exact ⟨by linarith, by linarith, by linarith, by linarith⟩, ?_, ?_⟩
  · refine drangeL_mono hd ?_ ?_ h1 <;>
      simp only [qmax_eq, qmin_eq] <;>
      [exact max_le_max le_rfl hx0; exact min_le_min le_rfl hx1]
  · refine drangeL_mono hd ?_ ?_ h2 <;>
      simp only [qmax_eq, qmin_eq] <;>
      [exact max_le_max le_rfl hy0; exact min_le_min le_rfl hy1]

theorem mem_dedupFirstAux [DecidableEq α] (a : α) :
    ∀ (l seen : List α), a ∈ dedupFirstAux seen l ↔ a ∈ l ∧ a ∉ seen := by
  intro l
  induction l with
  | nil => intro seen; simp [dedupFirstAux]
  | cons b bs ih =>
      intro seen
      by_cases hb : b ∈ seen
      · rw [dedupFirstAux, if_pos hb, ih]
        constructor
        · rintro ⟨h1, h2⟩
          exact ⟨List.mem_cons_of_mem b h1, h2⟩
        · rintro ⟨h1, h2⟩
          rcases List.mem_cons.mp h1 with rfl | h1
          · exact absurd hb h2
          · exact ⟨h1, h2⟩
      · rw [dedupFirstAux, if_neg hb]
        by_cases hab : a = b
        · subst hab
          simp [hb]
        · rw [List.mem_cons]
          simp only [hab, false_or]
          rw [ih]
          simp [hab, List.mem_cons]

theorem nodup_dedupFirstAux [DecidableEq α] :
    ∀ (l seen : List α), (dedupFirstAux seen l).Nodup := by
  intro l
  induction l with
  | nil => intro seen; simp [dedupFirstAux]
  | cons b bs ih =>
      intro seen
      by_cases hb : b ∈ seen
      · rw [dedupFirstAux, if_pos hb]
        exact ih seen
      · rw [dedupFirstAux, if_neg hb]
        refine List.nodup_cons.mpr ⟨?_, ih (b :: seen)⟩
        rw [mem_dedupFirstAux]
        rintro ⟨-, h⟩
        exact h (List.mem_cons_self b seen)

theorem mem_dedupFirst [DecidableEq α] {a : α} {l : List α} :
    a ∈ dedupFirst l ↔ a ∈ l := by
  unfold dedupFirst
  rw [mem_dedupFirstAux]
  simp

theorem nodup_dedupFirst [DecidableEq α] (l : List α) : (dedupFirst l).Nodup :=
  nodup_dedupFirstAux l []

theorem mem_cellObjs [DecidableEq α] {bbF : α → BBox} {P : BBox} {d : ℤ}
    {seq removed : List α} {k : ℤ × ℤ} {o : α} :
    o ∈ cellObjs bbF P d seq removed k ↔
      o ∈ seq ∧ o ∉ removed ∧ k ∈ getrangeL P d (bbF o) := by
  unfold cellObjs
  rw [List.mem_filter]
  simp [and_assoc]

theorem strictIntersect_iff {b r : BBox} :
    strictIntersect b r = true ↔
      ¬(b.x1 ≤ r.x0 ∨ r.x1 ≤ b.x0 ∨ b.y1 ≤ r.y0 ∨ r.y1 ≤ b.y0) := by
  unfold strictIntersect
  simp only [Bool.not_eq_true', Bool.or_eq_false_iff, decide_eq_false_iff_not]
  push_neg
  tauto

theorem getrangeL_inter_mem {P : BBox} {d : ℤ} (hd : 0 < d)
    (ax0 ay0 ax1 ay1 : ℚ) (h0x : 0 ≤ P.x0) (h0y : 0 ≤ P.y0)
    (hx0 : P.x0 ≤ ax0) (hy0 : P.y0 ≤ ay0)
    (hx1 : ax1 ≤ P.x1) (hy1 : ay1 ≤ P.y1)
    (hxs : P.x0 < ax1) (hxs2 : ax0 < P.x1) (hys : P.y0 < ay1) (hys2 : ay0 < P.y1)
    (hxle : ax0 ≤ ax1) (hyle : ay0 ≤ ay1) :
    ((pytrunc ax0).fdiv d, (pytrunc ay0).fdiv d) ∈
      getrangeL P d ⟨ax0, ay0, ax1, ay1⟩ := by
  rw [mem_getrangeL]
  refine ⟨by push_neg; exact ⟨hxs, hxs2, hys, hys2⟩, ?_, ?_⟩
  · have e0 : qmax P.x0 (⟨ax0, ay0, ax1, ay1⟩ : BBox).x0 = ax0 := by
      rw [qmax_eq]
      exact max_eq_right hx0
    have e1 : qmin P.x1 (⟨ax0, ay0, ax1, ay1⟩ : BBox).x1 = ax1 := by
      rw [qmin_eq]
      exact min_eq_right hx1
    rw [e0, e1]
    exact drangeL_lower_mem hd (le_trans h0x hx0) hxle
  · have e0 : qmax P.y0 (⟨ax0, ay0, ax1, ay1⟩ : BBox).y0 = ay0 := by
      rw [qmax_eq]
      exact max_eq_right hy0
    have e1 : qmin P.y1 (⟨ax0, ay0, ax1, ay1⟩ : BBox).y1 = ay1 := by
      rw [qmin_eq]
      exact min_eq_right hy1
    rw [e0, e1]
    exact drangeL_lower_mem hd (le_trans h0y hy0) hyle

/-- Claim C8, counterexample: on a plane with negative bounds
`(-10,-10,10,10)`, a member whose bbox `(-1/2,-1/2,-2/5,-2/5)` lies within
the bounds is assigned to *no* grid cell, because Python's `int()`
truncates toward zero (`int(-0.5) == 0` but `int(49.6) == 49`, giving the
empty `range(0, 0)`).  `find` on the rect `(-1,-1,1,1)`, which the member
strictly intersects, therefore misses it: the claimed "yields it iff its
bbox strictly intersects rect" fails. -/
theorem plane_find_negative_counterexample :
    ((-10 : ℚ) ≤ -1/2 ∧ (-2/5 : ℚ) ≤ 10 ∧ (-10 : ℚ) ≤ -1/2 ∧ (-2/5 : ℚ) ≤ 10) ∧
    strictIntersect ⟨-1/2, -1/2, -2/5, -2/5⟩ ⟨-1, -1, 1, 1⟩ = true ∧
    planeFind (fun _ : Unit => ⟨-1/2, -1/2, -2/5, -2/5⟩) ⟨-10, -10, 10, 10⟩ 50
        [()] [] ⟨-1, -1, 1, 1⟩ = [] ∧
    getrangeL ⟨-10, -10, 10, 10⟩ 50 ⟨-1, -1, 1, 1⟩ ≠ [] := by
  refine ⟨by norm_num, by with_unfolding_all decide, by with_unfolding_all decide,
    by with_unfolding_all decide⟩

/-- Claim C8, amended: restrict to planes whose lower-left corner has
nonnegative coordinates (as holds for the page planes the code builds,
whose bbox is `(0, 0, w, h)`) and to members with nondegenerate bboxes.
Then for every well-formed query rect, `find` yields a member whose bbox
lies within the plane bounds iff the bbox strictly intersects the rect
(touching edges excluded), each yielded object appears exactly once, all
visited grid cells are cells of the plane's own bbox, and the exclusion
of touching edges is deliberately asymmetric with `is_hoverlap`, where
touching edges count as overlapping. -/
theorem plane_find_semantics {α : Type} [DecidableEq α] (bbF : α → BBox)
    (P : BBox) (d : ℤ) (seq removed : List α) (r : BBox) (obj : α)
    (hd : 0 < d) (hP0x : 0 ≤ P.x0) (hP0y : 0 ≤ P.y0)
    (hmem : obj ∈ seq) (hrem : obj ∉ removed)
    (hin : P.x0 ≤ (bbF obj).x0 ∧ (bbF obj).x1 ≤ P.x1 ∧
      P.y0 ≤ (bbF obj).y0 ∧ (bbF obj).y1 ≤ P.y1)
    (hw : 0 < (bbF obj).width) (hh : 0 < (bbF obj).height)
    (hr : r.x0 ≤ r.x1 ∧ r.y0 ≤ r.y1) :
    (obj ∈ planeFind bbF P d seq removed r ↔ strictIntersect (bbF obj) r = true) ∧
    (planeFind bbF P d seq removed r).Nodup ∧
    (∀ k ∈ getrangeL P d r, k ∈ getrangeL P d ⟨P.x0, P.y0, P.x1, P.y1⟩) ∧
    (∀ a b : BBox, a.x1 = b.x0 → a.x0 ≤ b.x1 →
      is_hoverlap a b = true ∧ strictIntersect a b = false) := by
  obtain ⟨hi1, hi2, hi3, hi4⟩ := hin
  rw [BBox.width] at hw
  rw [BBox.height] at hh
  refine ⟨⟨?_, ?_⟩, ?_, ?_, ?_⟩
  · intro hfind
    exact (List.mem_filter.mp hfind).2
  · intro hsi
    unfold planeFind
    rw [List.mem_filter]
    refine ⟨?_, hsi⟩
    rw [mem_dedupFirst, List.mem_flatMap]
    rw [strictIntersect_iff] at hsi
    push_neg at hsi
    obtain ⟨s1, s2, s3, s4⟩ := hsi
    have hkmem := getrangeL_inter_mem hd
      (qmax (bbF obj).x0 r.x0) (qmax (bbF obj).y0 r.y0)
      (qmin (bbF obj).x1 r.x1) (qmin (bbF obj).y1 r.y1)
      hP0x hP0y
      (by rw [qmax_eq]; exact le_max_of_le_left hi1)
      (by rw [qmax_eq]; exact le_max_of_le_left hi3)
      (by rw [qmin_eq]; exact min_le_of_left_le hi2)
      (by rw [qmin_eq]; exact min_le_of_left_le hi4)
      (by rw [qmin_eq]; exact lt_min (by linarith) (by linarith))
      (by rw [qmax_eq]; exact max_lt (by linarith) (by linarith))
      (by rw [qmin_eq]; exact lt_min (by linarith) (by linarith))
      (by rw [qmax_eq]; exact max_lt (by linarith) (by linarith))
      (by rw [qmax_eq, qmin_eq]
          exact max_le (le_min (by linarith) (by linarith)) (le_min (by linarith) hr.1))
      (by rw [qmax_eq, qmin_eq]
          exact max_le (le_min (by linarith) (by linarith)) (le_min (by linarith) hr.2))
    refine ⟨((pytrunc (qmax (bbF obj).x0 r.x0)).fdiv d,
      (pytrunc (qmax (bbF obj).y0 r.y0)).fdiv d), ?_, ?_⟩
    · refine getrangeL_mono hd ?_ ?_ ?_ ?_ hkmem
      · rw [qmax_eq]
        exact le_max_right _ _
      · rw [qmin_eq]
        exact min_le_right _ _
      · rw [qmax_eq]
        exact le_max_right _ _
      · rw [qmin_eq]
        exact min_le_right _ _
    · rw [mem_cellObjs]
      refine ⟨hmem, hrem, ?_⟩
      refine getrangeL_mono hd ?_ ?_ ?_ ?_ hkmem
      · rw [qmax_eq]
        exact le_max_left _ _
      · rw [qmin_eq]
        exact min_le_left _ _
      · rw [qmax_eq]
        exact le_max_left _ _
      · rw [qmin_eq]
        exact min_le_left _ _
  · exact List.Nodup.filter _ (nodup_dedupFirst _)
  · intro k hk
    rw [mem_getrangeL] at hk
    obtain ⟨hout, h1, h2⟩ := hk
    push_neg at hout
    obtain ⟨o1, o2, o3, o4⟩ := hout
    rw [mem_getrangeL]
    have hPx : P.x0 < P.x1 := by
      rcases le_or_lt r.x0 P.x0 with h | h
      · linarith
      · linarith
    have hPy : P.y0 < P.y1 := by
      rcases le_or_lt r.y0 P.y0 with h | h
      · linarith
      · linarith
    refine ⟨by push_neg; exact ⟨by linarith, by linarith, by linarith, by linarith⟩, ?_, ?_⟩
    · refine drangeL_mono hd ?_ ?_ h1 <;> simp only [qmax_eq, qmin_eq] <;> simp
    · refine drangeL_mono hd ?_ ?_ h2 <;> simp only [qmax_eq, qmin_eq] <;> simp
  · intro a b hab hab2
    constructor
    · rw [is_hoverlap_iff]
      exact ⟨le_of_eq hab.symm, hab2⟩
    · unfold strictIntersect
      simp [hab.le]

/-- Witness for the amended C8 theorem: a `10 × 10` member box inside the
page plane `(0, 0, 100, 100)` is found by a query rect it strictly
intersects. -/
theorem plane_find_semantics_witness :
    strictIntersect ⟨20, 20, 30, 30⟩ ⟨25, 25, 60, 60⟩ = true ∧
    (0 : ℕ) ∈ planeFind (fun _ : ℕ => ⟨20, 20, 30, 30⟩) ⟨0, 0, 100, 100⟩ 50
      [0] [] ⟨25, 25, 60, 60⟩ :=
  ⟨by with_unfolding_all decide,
    (plane_find_semantics (fun _ : ℕ => ⟨20, 20, 30, 30⟩) ⟨0, 0, 100, 100⟩ 50
      [0] [] ⟨25, 25, 60, 60⟩ 0 (by norm_num) (by norm_num) (by norm_num)
      (by with_unfolding_all decide) (by with_unfolding_all decide)
      (by norm_num) (by norm_num [BBox.width]) (by norm_num [BBox.height])
      (by norm_num)).1.mpr (by with_unfolding_all decide)⟩

theorem collectGo_members_subset (store : List (List ℕ)) :
    ∀ (os members : List ℕ) (m : ℕ → Option ℕ) (x : ℕ),
      x ∈ members → x ∈ (collectGo store os members m).1 := by
  intro os
  induction os with
  | nil =>
      intro members m x hx
      exact hx
  | cons o rest ih =>
      intro members m x hx
      rw [collectGo]
      cases hmo : m o with
      | some b =>
          exact ih _ _ x (List.mem_append_left _ hx)
      | none =>
          exact ih _ _ x (List.mem_append_left _ hx)

theorem collectGo_os_subset (store : List (List ℕ)) :
    ∀ (os members : List ℕ) (m : ℕ → Option ℕ) (o : ℕ),
      o ∈ os → o ∈ (collectGo store os members m).1 := by
  intro os
  induction os with
  | nil =>
      intro members m o ho
      exact absurd ho (List.not_mem_nil o)
  | cons o0 rest ih =>
      intro members m o ho
      rw [collectGo]
      rcases List.mem_cons.mp ho with rfl | ho
      · cases hmo : m o with
        | some b =>
            exact collectGo_members_subset store rest _ _ o
              (List.mem_append_right _ (List.mem_cons_self _ _))
        | none =>
            exact collectGo_members_subset store rest _ _ o
              (List.mem_append_right _ (List.mem_cons_self _ _))
      · cases hmo : m o0 with
        | some b => exact ih _ _ o ho
        | none => exact ih _ _ o ho

theorem collectGo_mapping_mono (store : List (List ℕ)) :
    ∀ (os members : List ℕ) (m : ℕ → Option ℕ) (x b : ℕ),
      (collectGo store os members m).2 x = some b → m x = some b := by
  intro os
  induction os with
  | nil =>
      intro members m x b h
      exact h
  | cons o rest ih =>
      intro members m x b h
      rw [collectGo] at h
      cases hmo : m o with
      | some b0 =>
          rw [hmo] at h
          have h1 := ih _ _ x b h
          by_cases hxo : x = o
          · rw [if_pos hxo] at h1
            exact absurd h1 (by simp)
          · rw [if_neg hxo] at h1
            exact h1
      | none =>
          rw [hmo] at h
          exact ih _ _ x b h

theorem collectGo_mapping_none (store : List (List ℕ))
    (os members : List ℕ) (m : ℕ → Option ℕ) (x : ℕ) (hx : m x = none) :
    (collectGo store os members m).2 x = none := by
  cases h : (collectGo store os members m).2 x with
  | none => rfl
  | some b =>
      have := collectGo_mapping_mono store os members m x b h
      rw [hx] at this
      exact absurd this (by simp)

theorem collectGo_os_none (store : List (List ℕ)) :
    ∀ (os members : List ℕ) (m : ℕ → Option ℕ) (o : ℕ),
      o ∈ os → (collectGo store os members m).2 o = none := by
  intro os
  induction os with
  | nil =>
      intro members m o ho
      exact absurd ho (List.not_mem_nil o)
  | cons o0 rest ih =>
      intro members m o ho
      rw [collectGo]
      rcases List.mem_cons.mp ho with rfl | ho
      · cases hmo : m o with
        | some b =>
            exact collectGo_mapping_none store rest _ _ o (by rw [if_pos rfl])
        | none =>
            exact collectGo_mapping_none store rest _ _ o hmo
      · cases hmo : m o0 with
        | some b => exact ih _ _ o ho
        | none => exact ih _ _ o ho

theorem collectGo_mapping_cases (store : List (List ℕ)) :
    ∀ (os members : List ℕ) (m : ℕ → Option ℕ) (x b : ℕ), m x = some b →
      (collectGo store os members m).2 x = some b ∨
        ((collectGo store os members m).2 x = none ∧
          ∀ y ∈ store.getD b [], y ∈ (collectGo store os members m).1) := by
  intro os
  induction os with
  | nil =>
      intro members m x b h
      exact Or.inl h
  | cons o rest ih =>
      intro members m x b h
      rw [collectGo]
      cases hmo : m o with
      | some b0 =>
          by_cases hxo : x = o
          · subst hxo
            have hbb : b0 = b := by
              rw [hmo] at h
              exact (Option.some.injEq _ _ ▸ h :)
            subst hbb
            refine Or.inr ⟨?_, ?_⟩
            · exact collectGo_mapping_none store rest _ _ x (by rw [if_pos rfl])
            · intro y hy
              exact collectGo_members_subset store rest _ _ y
                (List.mem_append_right _ (List.mem_cons_of_mem _ hy))
          · have h1 : (fun z => if z = o then none else m z) x = some b := by
              dsimp only
              rw [if_neg hxo]
              exact h
            exact ih _ _ x b h1
      | none =>
          exact ih _ _ x b h

theorem collectGo_members_cases (store : List (List ℕ)) :
    ∀ (os members : List ℕ) (m : ℕ → Option ℕ) (x : ℕ),
      x ∈ (collectGo store os members m).1 →
        x ∈ members ∨ x ∈ os ∨
          ∃ o ∈ os, ∃ b, m o = some b ∧ x ∈ store.getD b [] := by
  intro os
  induction os with
  | nil =>
      intro members m x h
      exact Or.inl h
  | cons o0 rest ih =>
      intro members m x h
      rw [collectGo] at h
      cases hmo : m o0 with
      | some b0 =>
          rw [hmo] at h
          rcases ih _ _ x h with h1 | h1 | ⟨o, ho, b, hob, hxs⟩
          · rcases List.mem_append.mp h1 with h2 | h2
            · exact Or.inl h2
            · rcases List.mem_cons.mp h2 with rfl | h3
              · exact Or.inr (Or.inl (List.mem_cons_self _ _))
              · exact Or.inr (Or.inr ⟨o0, List.mem_cons_self _ _, b0, hmo, h3⟩)
          · exact Or.inr (Or.inl (List.mem_cons_of_mem _ h1))
          · by_cases hoo : o = o0
            · subst hoo
              rw [if_pos rfl] at hob
              exact absurd hob (by simp)
            · rw [if_neg hoo] at hob
              exact Or.inr (Or.inr ⟨o, List.mem_cons_of_mem _ ho, b, hob, hxs⟩)
      | none =>
          rw [hmo] at h
          rcases ih _ _ x h with h1 | h1 | ⟨o, ho, b, hob, hxs⟩
          · rcases List.mem_append.mp h1 with h2 | h2
            · exact Or.inl h2
            · rcases List.mem_cons.mp h2 with rfl | h3
              · exact Or.inr (Or.inl (List.mem_cons_self _ _))
              · exact absurd h3 (List.not_mem_nil x)
          · exact Or.inr (Or.inl (List.mem_cons_of_mem _ h1))
          · exact Or.inr (Or.inr ⟨o, List.mem_cons_of_mem _ ho, b, hob, hxs⟩)

theorem gtStep_inv {N : ℕ → List ℕ} {n k : ℕ} {st : GTState}
    (HN1 : ∀ i j, j ∈ N i → j ∈ N j) (HN2 : ∀ i j, j ∈ N i → j < n)
    (hk : k < n) (h : GTInv N n k st) : GTInv N n (k + 1) (gtStep N st k) := by
  obtain ⟨hI1, hI2, hI3, hI4, hI5⟩ := h
  set c := collectGo st.store (N k) [k] st.mapping with hc
  have hM : (gtStep N st k).mapping =
      fun x => if x ∈ dedupFirst c.1 then some st.store.length else c.2 x := rfl
  have hS : (gtStep N st k).store = st.store ++ [dedupFirst c.1] := rfl
  have hMono : ∀ x b, c.2 x = some b → st.mapping x = some b :=
    collectGo_mapping_mono st.store (N k) [k] st.mapping
  have hCases := collectGo_mapping_cases st.store (N k) [k] st.mapping
  have hMemCases := collectGo_members_cases st.store (N k) [k] st.mapping
  have hOsNone : ∀ o ∈ N k, c.2 o = none := fun o ho =>
    collectGo_os_none st.store (N k) [k] st.mapping o ho
  have hAbsorb : ∀ o ∈ N k, ∀ b, st.mapping o = some b →
      ∀ y ∈ st.store.getD b [], y ∈ dedupFirst c.1 := by
    intro o ho b hob y hy
    rcases hCases o b hob with h1 | ⟨-, h2⟩
    · rw [hOsNone o ho] at h1
      exact absurd h1 (by simp)
    · exact mem_dedupFirst.mpr (h2 y hy)
  have hKmem : k ∈ dedupFirst c.1 :=
    mem_dedupFirst.mpr (collectGo_members_subset st.store (N k) [k] st.mapping k (by simp))
  have hGetNb : (st.store ++ [dedupFirst c.1]).getD st.store.length [] = dedupFirst c.1 := by
    rw [List.getD_append_right _ _ _ _ (le_refl _)]
    simp
  have hGetLt : ∀ B, B < st.store.length →
      (st.store ++ [dedupFirst c.1]).getD B [] = st.store.getD B [] := by
    intro B hB
    exact List.getD_append _ _ _ _ hB
  have hOldAbsorbed : ∀ L B, L ∈ dedupFirst c.1 → st.mapping L = some B →
      ∀ y ∈ st.store.getD B [], y ∈ dedupFirst c.1 := by
    intro L B hLm hL0
    rcases hMemCases L (mem_dedupFirst.mp hLm) with h1 | h1 | ⟨o, ho, b, hob, hLs⟩
    · have hLk : L = k := by simpa using h1
      subst hLk
      have hkN : L ∈ N L := by
        rcases (hI4 L (by rw [hL0]; simp)).2 with hlt | hin
        · exact absurd hlt (lt_irrefl _)
        · exact hin
      exact hAbsorb L hkN B hL0
    · exact hAbsorb L h1 B hL0
    · have hLb : st.mapping L = some b := hI2 b o L hob hLs
      have hbB : b = B := Option.some.inj (hLb.symm.trans hL0)
      subst hbB
      exact hAbsorb o ho b hob
  refine ⟨?_, ?_, ?_, ?_, ?_⟩
  · -- I1
    intro L B hLB
    rw [hM] at hLB
    dsimp only at hLB
    rw [hS]
    by_cases hLm : L ∈ dedupFirst c.1
    · rw [if_pos hLm] at hLB
      have hB : st.store.length = B := Option.some.inj hLB
      subst hB
      refine ⟨by simp, ?_⟩
      rw [hGetNb]
      exact hLm
    · rw [if_neg hLm] at hLB
      have h0 := hMono L B hLB
      obtain ⟨hBlt, hLst⟩ := hI1 L B h0
      refine ⟨by simp [Nat.lt_succ_of_lt hBlt], ?_⟩
      rw [hGetLt B hBlt]
      exact hLst
  · -- I2
    intro B Lp L hLp hL
    rw [hM] at hLp ⊢
    rw [hS] at hL
    dsimp only at hLp ⊢
    by_cases hLpm : Lp ∈ dedupFirst c.1
    · rw [if_pos hLpm] at hLp
      have hB : st.store.length = B := Option.some.inj hLp
      subst hB
      rw [hGetNb] at hL
      rw [if_pos hL]
    · rw [if_neg hLpm] at hLp
      have hLp0 : st.mapping Lp = some B := hMono _ _ hLp
      have hBlt : B < st.store.length := (hI1 _ _ hLp0).1
      rw [hGetLt B hBlt] at hL
      have hL0 : st.mapping L = some B := hI2 B Lp L hLp0 hL
      have hLnm : L ∉ dedupFirst c.1 := by
        intro hLm
        exact hLpm (hOldAbsorbed L B hLm hL0 Lp (hI1 _ _ hLp0).2)
      rw [if_neg hLnm]
      rcases hCases L B hL0 with h1 | ⟨-, h2⟩
      · exact h1
      · exact absurd (mem_dedupFirst.mpr (h2 Lp (hI1 _ _ hLp0).2)) hLpm
  · -- I3
    intro i hi
    rw [hM]
    dsimp only
    by_cases him : i ∈ dedupFirst c.1
    · rw [if_pos him]
      simp
    · rw [if_neg him]
      rcases Nat.lt_succ_iff_lt_or_eq.mp hi with hik | rfl
      · have h0 : st.mapping i ≠ none := hI3 i hik
        cases hmi : st.mapping i with
        | none => exact absurd hmi h0
        | some b =>
            rcases hCases i b hmi with h1 | ⟨-, h2⟩
            · simp [hc, h1]
            · exact absurd (mem_dedupFirst.mpr (h2 i (hI1 _ _ hmi).2)) him
      · exact absurd hKmem him
  · -- I4
    intro L hL
    rw [hM] at hL
    dsimp only at hL
    by_cases hLm : L ∈ dedupFirst c.1
    · rcases hMemCases L (mem_dedupFirst.mp hLm) with h1 | h1 | ⟨o, ho, b, hob, hLs⟩
      · have hLk : L = k := by simpa using h1
        subst hLk
        exact ⟨hk, Or.inl (Nat.lt_succ_self L)⟩
      · exact ⟨HN2 k L h1, Or.inr (HN1 k L h1)⟩
      · have hL0 : st.mapping L = some b := hI2 b o L hob hLs
        have h2 := hI4 L (by rw [hL0]; simp)
        exact ⟨h2.1, h2.2.imp Nat.lt_succ_of_lt id⟩
    · rw [if_neg hLm] at hL
      cases hc2 : c.2 L with
      | none =>
          rw [hc2] at hL
          exact absurd rfl hL
      | some b =>
          have hL0 := hMono L b hc2
          have h2 := hI4 L (by rw [hL0]; simp)
          exact ⟨h2.1, h2.2.imp Nat.lt_succ_of_lt id⟩
  · -- I5
    intro B
    rw [hS]
    rcases lt_trichotomy B st.store.length with hB | rfl | hB
    · rw [hGetLt B hB]
      exact hI5 B
    · rw [hGetNb]
      exact nodup_dedupFirst _
    · rw [List.getD_eq_default]
      · exact List.nodup_nil
      · simp only [List.length_append, List.length_singleton]
        omega

theorem runGTL_inv {N : ℕ → List ℕ} {n : ℕ}
    (HN1 : ∀ i j, j ∈ N i → j ∈ N j) (HN2 : ∀ i j, j ∈ N i → j < n) :
    GTInv N n n (runGTL N n) := by
  suffices h : ∀ k, k ≤ n →
      GTInv N n k ((List.range k).foldl (gtStep N) ⟨fun _ => none, []⟩) from
    h n (le_refl n)
  intro k
  induction k with
  | zero =>
      intro _
      refine ⟨?_, ?_, ?_, ?_, ?_⟩
      · intro L B hLB
        exact absurd hLB (by simp)
      · intro B Lp L hLp
        exact absurd hLp (by simp)
      · intro i hi
        exact absurd hi (Nat.not_lt_zero i)
      · intro L hL
        exact absurd rfl hL
      · intro B
        simp
  | succ k ih =>
      intro hk1
      rw [List.range_succ, List.foldl_append, List.foldl_cons, List.foldl_nil]
      exact gtStep_inv HN1 HN2 (by omega) (ih (by omega))

theorem bbUnion_le (a b : BBox) :
    (bbUnion a b).x0 ≤ a.x0 ∧ (bbUnion a b).y0 ≤ a.y0 ∧
      a.x1 ≤ (bbUnion a b).x1 ∧ a.y1 ≤ (bbUnion a b).y1 := by
  unfold bbUnion
  refine ⟨?_, ?_, ?_, ?_⟩ <;> dsimp only <;> simp only [qmin_eq, qmax_eq] <;>
    first
      | exact min_le_left _ _
      | exact le_max_left _ _

theorem bbUnion_le_right (a b : BBox) :
    (bbUnion a b).x0 ≤ b.x0 ∧ (bbUnion a b).y0 ≤ b.y0 ∧
      b.x1 ≤ (bbUnion a b).x1 ∧ b.y1 ≤ (bbUnion a b).y1 := by
  unfold bbUnion
  refine ⟨?_, ?_, ?_, ?_⟩ <;> dsimp only <;> simp only [qmin_eq, qmax_eq] <;>
    first
      | exact min_le_right _ _
      | exact le_max_right _ _

theorem foldl_bbUnion_le (bbs : List BBox) : ∀ acc : BBox,
    (bbs.foldl bbUnion acc).x0 ≤ acc.x0 ∧ (bbs.foldl bbUnion acc).y0 ≤ acc.y0 ∧
      acc.x1 ≤ (bbs.foldl bbUnion acc).x1 ∧ acc.y1 ≤ (bbs.foldl bbUnion acc).y1 := by
  induction bbs with
  | nil =>
      intro acc
      simp
  | cons b bs ih =>
      intro acc
      rw [List.foldl_cons]
      obtain ⟨h1, h2, h3, h4⟩ := ih (bbUnion acc b)
      obtain ⟨g1, g2, g3, g4⟩ := bbUnion_le acc b
      exact ⟨h1.trans g1, h2.trans g2, g3.trans h3, g4.trans h4⟩

theorem foldl_bbUnion_mem (bbs : List BBox) (z : BBox) :
    ∀ acc : BBox, z ∈ bbs →
      (bbs.foldl bbUnion acc).x0 ≤ z.x0 ∧ (bbs.foldl bbUnion acc).y0 ≤ z.y0 ∧
        z.x1 ≤ (bbs.foldl bbUnion acc).x1 ∧ z.y1 ≤ (bbs.foldl bbUnion acc).y1 := by
  induction bbs with
  | nil =>
      intro acc hz
      exact absurd hz (List.not_mem_nil z)
  | cons b bs ih =>
      intro acc hz
      rw [List.foldl_cons]
      rcases List.mem_cons.mp hz with rfl | hz
      · obtain ⟨h1, h2, h3, h4⟩ := foldl_bbUnion_le bs (bbUnion acc z)
        obtain ⟨g1, g2, g3, g4⟩ := bbUnion_le_right acc z
        exact ⟨h1.trans g1, h2.trans g2, g3.trans h3, g4.trans h4⟩
      · exact ih _ hz

theorem boxNonEmpty_of_mem {lines : List LineG} {mems : List ℕ} {i : ℕ}
    (hi : i ∈ mems) (hw : 0 < (lineBB lines i).width)
    (hh : 0 < (lineBB lines i).height) : boxIsEmpty lines mems = false := by
  unfold boxIsEmpty
  have hmem : lineBB lines i ∈ mems.map (lineBB lines) := List.mem_map_of_mem _ hi
  obtain ⟨h1, h2, h3, h4⟩ := foldl_bbUnion_mem (mems.map (lineBB lines)) _
    ⟨INT32_MAX, INT32_MAX, INT32_MIN, INT32_MIN⟩ hmem
  rw [Bool.or_eq_false_iff, decide_eq_false_iff_not, decide_eq_false_iff_not]
  simp only [BBox.width, BBox.height] at hw hh ⊢
  unfold foldBBox
  constructor <;> push_neg <;> linarith

theorem mem_planeFind {α : Type} [DecidableEq α] {bbF : α → BBox} {P : BBox}
    {d : ℤ} {seq removed : List α} {r : BBox} {o : α} :
    o ∈ planeFind bbF P d seq removed r ↔
      (∃ k ∈ getrangeL P d r, o ∈ cellObjs bbF P d seq removed k) ∧
        strictIntersect (bbF o) r = true := by
  unfold planeFind
  rw [List.mem_filter, mem_dedupFirst, List.mem_flatMap]

theorem yieldGo_cons_none {lines : List LineG} {st : GTState} {i : ℕ}
    {rest doneB : List ℕ} (h : st.mapping i = none) :
    yieldGo lines st (i :: rest) doneB = yieldGo lines st rest doneB := by
  rw [yieldGo, h]

theorem yieldGo_cons_done {lines : List LineG} {st : GTState} {i b : ℕ}
    {rest doneB : List ℕ} (h : st.mapping i = some b) (hb : b ∈ doneB) :
    yieldGo lines st (i :: rest) doneB = yieldGo lines st rest doneB := by
  rw [yieldGo, h]
  exact if_pos hb

theorem yieldGo_cons_empty {lines : List LineG} {st : GTState} {i b : ℕ}
    {rest doneB : List ℕ} (h : st.mapping i = some b) (hb : b ∉ doneB)
    (he : boxIsEmpty lines (st.store.getD b []) = true) :
    yieldGo lines st (i :: rest) doneB =
      yieldGo lines st rest (doneB ++ [b]) := by
  rw [yieldGo, h]
  show (if b ∈ doneB then yieldGo lines st rest doneB
    else if boxIsEmpty lines (st.store.getD b []) = true then
      yieldGo lines st rest (doneB ++ [b])
    else st.store.getD b [] :: yieldGo lines st rest (doneB ++ [b])) =
      yieldGo lines st rest (doneB ++ [b])
  rw [if_neg hb, if_pos he]

theorem yieldGo_cons_yield {lines : List LineG} {st : GTState} {i b : ℕ}
    {rest doneB : List ℕ} (h : st.mapping i = some b) (hb : b ∉ doneB)
    (he : boxIsEmpty lines (st.store.getD b []) = false) :
    yieldGo lines st (i :: rest) doneB =
      (st.store.getD b []) :: yieldGo lines st rest (doneB ++ [b]) := by
  rw [yieldGo, h]
  show (if b ∈ doneB then yieldGo lines st rest doneB
    else if boxIsEmpty lines (st.store.getD b []) = true then
      yieldGo lines st rest (doneB ++ [b])
    else st.store.getD b [] :: yieldGo lines st rest (doneB ++ [b])) =
      st.store.getD b [] :: yieldGo lines st rest (doneB ++ [b])
  rw [if_neg hb, if_neg (by rw [Bool.not_eq_true]; exact he)]

theorem exists_cons_mapping_iff {st : GTState} {i B0 b : ℕ}
    (rest : List ℕ) (hmi : st.mapping i = some b) (hbB0 : b ≠ B0) :
    (∃ j ∈ i :: rest, st.mapping j = some B0) ↔
      (∃ j ∈ rest, st.mapping j = some B0) := by
  constructor
  · rintro ⟨j, hjm, hjv⟩
    rcases List.mem_cons.mp hjm with rfl | hjm
    · rw [hmi] at hjv
      exact absurd (Option.some.inj hjv) hbB0
    · exact ⟨j, hjm, hjv⟩
  · rintro ⟨j, hjm, hjv⟩
    exact ⟨j, List.mem_cons_of_mem _ hjm, hjv⟩

theorem yieldGo_count {lines : List LineG} {st : GTState} {i0 B0 : ℕ}
    (hmap : st.mapping i0 = some B0)
    (hB0mem : i0 ∈ st.store.getD B0 [])
    (hnodup : (st.store.getD B0 []).Nodup)
    (hI2 : ∀ B Lp L, st.mapping Lp = some B → L ∈ st.store.getD B [] →
      st.mapping L = some B)
    (hNE : boxIsEmpty lines (st.store.getD B0 []) = false) :
    ∀ (rest doneB : List ℕ),
      List.count i0 (yieldGo lines st rest doneB).flatten =
        if B0 ∈ doneB then 0
        else if ∃ j ∈ rest, st.mapping j = some B0 then 1 else 0 := by
  intro rest
  induction rest with
  | nil =>
      intro doneB
      rw [yieldGo]
      by_cases hd : B0 ∈ doneB
      · rw [if_pos hd]
        simp
      · rw [if_neg hd, if_neg (by simp)]
        simp
  | cons i rest ih =>
      intro doneB
      cases hmi : st.mapping i with
      | none =>
          rw [yieldGo_cons_none hmi, ih doneB]
          have hiff : (∃ j ∈ i :: rest, st.mapping j = some B0) ↔
              (∃ j ∈ rest, st.mapping j = some B0) := by
            constructor
            · rintro ⟨j, hjm, hjv⟩
              rcases List.mem_cons.mp hjm with rfl | hjm
              · rw [hmi] at hjv
                exact absurd hjv (by simp)
              · exact ⟨j, hjm, hjv⟩
            · rintro ⟨j, hjm, hjv⟩
              exact ⟨j, List.mem_cons_of_mem _ hjm, hjv⟩
          by_cases hd : B0 ∈ doneB
          · rw [if_pos hd, if_pos hd]
          · rw [if_neg hd, if_neg hd]
            by_cases he : ∃ j ∈ rest, st.mapping j = some B0
            · rw [if_pos he, if_pos (hiff.mpr he)]
            · rw [if_neg he, if_neg (fun hx => he (hiff.mp hx))]
      | some b =>
          by_cases hbd : b ∈ doneB
          · rw [yieldGo_cons_done hmi hbd, ih doneB]
            by_cases hd : B0 ∈ doneB
            · rw [if_pos hd, if_pos hd]
            · have hbB0 : b ≠ B0 := fun he => hd (he ▸ hbd)
              have hiff := exists_cons_mapping_iff rest hmi hbB0
              rw [if_neg hd, if_neg hd]
              by_cases he : ∃ j ∈ rest, st.mapping j = some B0
              · rw [if_pos he, if_pos (hiff.mpr he)]
              · rw [if_neg he, if_neg (fun hx => he (hiff.mp hx))]
          · by_cases hbe : boxIsEmpty lines (st.store.getD b []) = true
            · have hbB0 : b ≠ B0 := by
                intro heq
                rw [heq, hNE] at hbe
                exact Bool.false_ne_true hbe
              rw [yieldGo_cons_empty hmi hbd hbe, ih (doneB ++ [b])]
              have hdone : (B0 ∈ doneB ++ [b]) ↔ B0 ∈ doneB := by
                simp [List.mem_append, Ne.symm hbB0]
              have hiff := exists_cons_mapping_iff rest hmi hbB0
              by_cases hd : B0 ∈ doneB
              · rw [if_pos (hdone.mpr hd), if_pos hd]
              · rw [if_neg (fun hx => hd (hdone.mp hx)), if_neg hd]
                by_cases he : ∃ j ∈ rest, st.mapping j = some B0
                · rw [if_pos he, if_pos (hiff.mpr he)]
                · rw [if_neg he, if_neg (fun hx => he (hiff.mp hx))]
            · have hbe2 : boxIsEmpty lines (st.store.getD b []) = false :=
                Bool.eq_false_iff.mpr hbe
              rw [yieldGo_cons_yield hmi hbd hbe2, List.flatten_cons,
                List.count_append]
              by_cases hbB0 : b = B0
              · subst hbB0
                have h1 : List.count i0 (st.store.getD b []) = 1 :=
                  List.count_eq_one_of_mem hnodup hB0mem
                rw [h1, ih (doneB ++ [b]), if_pos (by simp)]
                rw [if_neg hbd,
                  if_pos ⟨i, List.mem_cons_self i rest, hmi⟩]
              · have h0 : List.count i0 (st.store.getD b []) = 0 := by
                  rw [List.count_eq_zero]
                  intro hmem0
                  have hcontra := hI2 b i i0 hmi hmem0
                  rw [hmap] at hcontra
                  exact hbB0 (Option.some.inj hcontra).symm
                rw [h0, ih (doneB ++ [b])]
                have hdone : (B0 ∈ doneB ++ [b]) ↔ B0 ∈ doneB := by
                  simp [List.mem_append, Ne.symm hbB0]
                have hiff := exists_cons_mapping_iff rest hmi hbB0
                by_cases hd : B0 ∈ doneB
                · rw [if_pos (hdone.mpr hd), if_pos hd]
                · rw [if_neg (fun hx => hd (hdone.mp hx)), if_neg hd]
                  by_cases he : ∃ j ∈ rest, st.mapping j = some B0
                  · rw [if_pos he, if_pos (hiff.mpr he)]
                  · rw [if_neg he, if_neg (fun hx => he (hiff.mp hx))]

theorem neighborsOf_lt {lines : List LineG} {P : BBox} {ratio : ℚ} {i j : ℕ}
    (hj : j ∈ neighborsOf lines P ratio i) : j < lines.length := by
  unfold neighborsOf at hj
  split at hj <;>
    · rw [List.mem_filter] at hj
      have h1 := hj.1
      rw [mem_planeFind] at h1
      obtain ⟨⟨k, -, hcell⟩, -⟩ := h1
      rw [mem_cellObjs] at hcell
      exact List.mem_range.mp hcell.1

theorem neighborsOf_self_mem {lines : List LineG} {P : BBox} {ratio : ℚ}
    (hdims : ∀ j, j < lines.length →
      0 < (lineBB lines j).width ∧ 0 < (lineBB lines j).height)
    {i j : ℕ} (hj : j ∈ neighborsOf lines P ratio i) :
    j ∈ neighborsOf lines P ratio j := by
  unfold neighborsOf at hj
  by_cases hvi : lineVert lines i = true
  · -- vertical branch of line i
    rw [if_pos hvi, List.mem_filter] at hj
    obtain ⟨hfind, hfilt⟩ := hj
    unfold vAlignFilter at hfilt
    simp only [Bool.and_eq_true, Bool.or_eq_true, decide_eq_true_eq] at hfilt
    obtain ⟨⟨hvj, hsame⟩, halignj⟩ := hfilt
    rw [mem_planeFind] at hfind
    obtain ⟨⟨k, hkw, hcell⟩, hstrict⟩ := hfind
    rw [mem_cellObjs] at hcell
    obtain ⟨hseq, -, hkj⟩ := hcell
    have hjn : j < lines.length := List.mem_range.mp hseq
    obtain ⟨hwj, hhj⟩ := hdims j hjn
    have hwj2 : (lineBB lines j).x0 < (lineBB lines j).x1 := by
      have h := hwj
      unfold BBox.width at h
      linarith
    have hhj2 : (lineBB lines j).y0 < (lineBB lines j).y1 := by
      have h := hhj
      unfold BBox.height at h
      linarith
    have hratio : 0 ≤ ratio := by
      by_cases hin : i < lines.length
      · have hpos : 0 < (lineBB lines i).width := (hdims i hin).1
        by_contra hneg
        push_neg at hneg
        have hmul : ratio * (lineBB lines i).width < 0 :=
          mul_neg_of_neg_of_pos hneg hpos
        have habs : 0 ≤ qabs ((lineBB lines j).width - (lineBB lines i).width) := by
          rw [qabs_eq]
          exact abs_nonneg _
        linarith
      · exfalso
        have hbb : lineBB lines i = ⟨0, 0, 0, 0⟩ := by
          unfold lineBB
          rw [List.getD_eq_default _ _ (le_of_not_lt hin)]
          rfl
        have hzero : (lineBB lines i).width = 0 := by
          rw [hbb]
          unfold BBox.width
          norm_num
        have hkey : (lineBB lines j).width - (lineBB lines i).width ≤
            ratio * (lineBB lines i).width := by
          have hle := le_abs_self ((lineBB lines j).width - (lineBB lines i).width)
          rw [← qabs_eq] at hle
          linarith
        rw [hzero, mul_zero, sub_zero] at hkey
        linarith
    have hdj : 0 ≤ ratio * (lineBB lines j).width :=
      mul_nonneg hratio hwj.le
    unfold neighborsOf
    rw [if_pos hvj, List.mem_filter]
    constructor
    · rw [mem_planeFind]
      refine ⟨⟨k, ?_, ?_⟩, ?_⟩
      · refine getrangeL_mono (by norm_num) ?_ ?_ ?_ ?_ hkj
        · exact sub_le_self _ hdj
        · exact le_add_of_nonneg_right hdj
        · exact le_refl _
        · exact le_refl _
      · rw [mem_cellObjs]
        exact ⟨hseq, by simp, hkj⟩
      · rw [strictIntersect_iff]
        push_neg
        refine ⟨?_, ?_, ?_, ?_⟩ <;> simp only [vWindow] <;> linarith
    · unfold vAlignFilter
      simp only [Bool.and_eq_true, Bool.or_eq_true, decide_eq_true_eq]
      refine ⟨⟨hvj, ?_⟩, Or.inl (Or.inl ?_)⟩
      · rw [sub_self, qabs_eq, abs_zero]
        exact hdj
      · rw [sub_self, qabs_eq, abs_zero]
        exact hdj
  · -- horizontal branch of line i
    rw [if_neg hvi, List.mem_filter] at hj
    obtain ⟨hfind, hfilt⟩ := hj
    unfold hAlignFilter at hfilt
    simp only [Bool.and_eq_true, Bool.or_eq_true, Bool.not_eq_true',
      decide_eq_true_eq] at hfilt
    obtain ⟨⟨hvj, hsame⟩, halignj⟩ := hfilt
    rw [mem_planeFind] at hfind
    obtain ⟨⟨k, hkw, hcell⟩, hstrict⟩ := hfind
    rw [mem_cellObjs] at hcell
    obtain ⟨hseq, -, hkj⟩ := hcell
    have hjn : j < lines.length := List.mem_range.mp hseq
    obtain ⟨hwj, hhj⟩ := hdims j hjn
    have hwj2 : (lineBB lines j).x0 < (lineBB lines j).x1 := by
      have h := hwj
      unfold BBox.width at h
      linarith
    have hhj2 : (lineBB lines j).y0 < (lineBB lines j).y1 := by
      have h := hhj
      unfold BBox.height at h
      linarith
    have hratio : 0 ≤ ratio := by
      by_cases hin : i < lines.length
      · have hpos : 0 < (lineBB lines i).height := (hdims i hin).2
        by_contra hneg
        push_neg at hneg
        have hmul : ratio * (lineBB lines i).height < 0 :=
          mul_neg_of_neg_of_pos hneg hpos
        have habs : 0 ≤ qabs ((lineBB lines j).height - (lineBB lines i).height) := by
          rw [qabs_eq]
          exact abs_nonneg _
        linarith
      · exfalso
        have hbb : lineBB lines i = ⟨0, 0, 0, 0⟩ := by
          unfold lineBB
          rw [List.getD_eq_default _ _ (le_of_not_lt hin)]
          rfl
        have hzero : (lineBB lines i).height = 0 := by
          rw [hbb]
          unfold BBox.height
          norm_num
        have hkey : (lineBB lines j).height - (lineBB lines i).height ≤
            ratio * (lineBB lines i).height := by
          have hle := le_abs_self ((lineBB lines j).height - (lineBB lines i).height)
          rw [← qabs_eq] at hle
          linarith
        rw [hzero, mul_zero, sub_zero] at hkey
        linarith
    have hdj : 0 ≤ ratio * (lineBB lines j).height :=
      mul_nonneg hratio hhj.le
    unfold neighborsOf
    rw [if_neg (by rw [hvj]; exact Bool.false_ne_true), List.mem_filter]
    constructor
    · rw [mem_planeFind]
      refine ⟨⟨k, ?_, ?_⟩, ?_⟩
      · refine getrangeL_mono (by norm_num) ?_ ?_ ?_ ?_ hkj
        · exact le_refl _
        · exact le_refl _
        · exact sub_le_self _ hdj
        · exact le_add_of_nonneg_right hdj
      · rw [mem_cellObjs]
        exact ⟨hseq, by simp, hkj⟩
      · rw [strictIntersect_iff]
        push_neg
        refine ⟨?_, ?_, ?_, ?_⟩ <;> simp only [hWindow] <;> linarith
    · unfold hAlignFilter
      simp only [Bool.and_eq_true, Bool.or_eq_true, Bool.not_eq_true',
        decide_eq_true_eq]
      refine ⟨⟨hvj, ?_⟩, Or.inl (Or.inl ?_)⟩
      · rw [sub_self, qabs_eq, abs_zero]
        exact hdj
      · rw [sub_self, qabs_eq, abs_zero]
        exact hdj

/-- C2: coverage invariant. For every non-empty character sequence, the
concatenation of the character lists of the lines produced by
`group_objects` is exactly the input sequence (each character lands in
exactly one line, none dropped or duplicated); and for every input line
list whose lines are all non-empty (positive width and height, the
`is_empty` test of miner.py lines 326-327), every line index appears in
exactly one of the boxes produced by `group_textlines`. -/
theorem coverage_invariant :
    (∀ (p : LAParams) (c : BBox) (cs : List BBox),
      ((group_objects p (c :: cs)).map TLine.chars).flatten = c :: cs) ∧
    (∀ (lines : List LineG) (P : BBox) (ratio : ℚ),
      (∀ j, j < lines.length →
        0 < (lineBB lines j).width ∧ 0 < (lineBB lines j).height) →
      ∀ i0, i0 < lines.length →
        List.count i0 (group_textlines lines P ratio).flatten = 1) := by
  constructor
  · intro p c cs
    show ((groupAux p c none cs).map TLine.chars).flatten = c :: cs
    rw [groupAux_chars]
    rfl
  · intro lines P ratio hdims i0 hi0
    have HN1 : ∀ i j, j ∈ neighborsOf lines P ratio i →
        j ∈ neighborsOf lines P ratio j :=
      fun i j hj => neighborsOf_self_mem hdims hj
    have HN2 : ∀ i j, j ∈ neighborsOf lines P ratio i → j < lines.length :=
      fun i j hj => neighborsOf_lt hj
    obtain ⟨hI1, hI2, hI3, hI4, hI5⟩ := runGTL_inv HN1 HN2
    cases hmi : (runGTL (neighborsOf lines P ratio) lines.length).mapping i0 with
    | none => exact absurd hmi (hI3 i0 hi0)
    | some B0 =>
        have hB0mem := (hI1 i0 B0 hmi).2
        have hNE : boxIsEmpty lines
            ((runGTL (neighborsOf lines P ratio) lines.length).store.getD B0 [])
              = false :=
          boxNonEmpty_of_mem hB0mem (hdims i0 hi0).1 (hdims i0 hi0).2
        unfold group_textlines
        rw [yieldGo_count hmi hB0mem (hI5 B0) hI2 hNE (List.range lines.length)
          []]
        rw [if_neg (List.not_mem_nil B0),
          if_pos ⟨i0, List.mem_range.mpr hi0, hmi⟩]

theorem coverage_invariant_witness :
    ((group_objects defaultParams [⟨0, 0, 1, 1⟩]).map TLine.chars).flatten =
        [(⟨0, 0, 1, 1⟩ : BBox)] ∧
      List.count 0 (group_textlines [⟨false, ⟨0, 0, 10, 10⟩⟩] ⟨0, 0, 100, 100⟩
          (1 / 2)).flatten = 1 :=
  ⟨coverage_invariant.1 defaultParams ⟨0, 0, 1, 1⟩ [],
   coverage_invariant.2 [⟨false, ⟨0, 0, 10, 10⟩⟩] ⟨0, 0, 100, 100⟩ (1 / 2)
     (fun j hj => by
       have hj0 : j = 0 := by
         simp only [List.length_singleton] at hj
         omega
       subst hj0
       exact ⟨by with_unfolding_all decide, by with_unfolding_all decide⟩)
     0 (by norm_num)⟩

theorem tbPop_done {boxes : ℕ → BBox} {vflags : ℕ → Bool}
    {ident gident : ℕ → ℕ} {P : BBox} {st : TBState} {e : HEntry}
    (hd : e.id1 ∈ st.doneIds ∨ e.id2 ∈ st.doneIds) :
    tbPop boxes vflags ident gident P st e =
      ⟨st.heap.erase e, st.seq, st.removed, st.doneIds, st.gcount⟩ := by
  unfold tbPop
  rw [if_pos hd]

theorem tbPop_veto {boxes : ℕ → BBox} {vflags : ℕ → Bool}
    {ident gident : ℕ → ℕ} {P : BBox} {st : TBState} {e : HEntry}
    (hd : ¬(e.id1 ∈ st.doneIds ∨ e.id2 ∈ st.doneIds))
    (hc : (!e.flag && !(isanyModel boxes P st e.o1 e.o2).isEmpty) = true) :
    tbPop boxes vflags ident gident P st e =
      ⟨st.heap.erase e ++ [⟨true, e.d, e.id1, e.id2, e.o1, e.o2⟩],
        st.seq, st.removed, st.doneIds, st.gcount⟩ := by
  unfold tbPop
  rw [if_neg hd, if_pos hc]

theorem tbPop_merge {boxes : ℕ → BBox} {vflags : ℕ → Bool}
    {ident gident : ℕ → ℕ} {P : BBox} {st : TBState} {e : HEntry}
    (hd : ¬(e.id1 ∈ st.doneIds ∨ e.id2 ∈ st.doneIds))
    (hc : (!e.flag && !(isanyModel boxes P st e.o1 e.o2).isEmpty) = false) :
    tbPop boxes vflags ident gident P st e =
      ⟨st.heap.erase e ++
          ((st.seq.filter fun o =>
              !(st.removed ++ [e.o1, e.o2]).contains o).map fun other =>
            ⟨false,
              gdist boxes
                (GObj.group (gvert vflags e.o1 || gvert vflags e.o2)
                  st.gcount e.o1 e.o2) other,
              gident st.gcount, objId ident gident other,
              GObj.group (gvert vflags e.o1 || gvert vflags e.o2)
                st.gcount e.o1 e.o2, other⟩),
        st.seq ++
          [GObj.group (gvert vflags e.o1 || gvert vflags e.o2)
            st.gcount e.o1 e.o2],
        st.removed ++ [e.o1, e.o2],
        st.doneIds ++ [e.id1, e.id2],
        st.gcount + 1⟩ := by
  unfold tbPop
  rw [if_neg hd, if_neg (by rw [Bool.not_eq_true]; exact hc)]

theorem tbStep_of_min_none {boxes : ℕ → BBox} {vflags : ℕ → Bool}
    {ident gident : ℕ → ℕ} {P : BBox} {st : TBState}
    (hm : heapMin st.heap = none) :
    tbStep boxes vflags ident gident P st = st := by
  unfold tbStep
  rw [hm]

theorem tbStep_of_min_some {boxes : ℕ → BBox} {vflags : ℕ → Bool}
    {ident gident : ℕ → ℕ} {P : BBox} {st : TBState} {e : HEntry}
    (hm : heapMin st.heap = some e) :
    tbStep boxes vflags ident gident P st =
      tbPop boxes vflags ident gident P st e := by
  unfold tbStep
  rw [hm]

/-- C10: `group_textboxes` on no boxes returns the empty list, and on
exactly one box returns that box itself, never merged into or wrapped in
a group: with fewer than two boxes no pair exists, the heap starts empty,
the loop never runs and the plane holds exactly the input. -/
theorem group_textboxes_small_inputs :
    ∀ (boxes : ℕ → BBox) (vflags : ℕ → Bool) (ident gident : ℕ → ℕ)
      (P : BBox) (fuel : ℕ),
      group_textboxes_model boxes vflags ident gident P 0 fuel = [] ∧
      group_textboxes_model boxes vflags ident gident P 1 fuel =
        [GObj.box 0] := by
  intro boxes vflags ident gident P fuel
  constructor
  · show tbResult
      (tbRun boxes vflags ident gident P fuel (tbInit boxes ident 0)) = []
    have h0 : tbInit boxes ident 0 = ⟨[], [], [], [], 0⟩ := rfl
    rw [h0]
    cases fuel with
    | zero => rfl
    | succ f => rfl
  · show tbResult
      (tbRun boxes vflags ident gident P fuel (tbInit boxes ident 1)) =
        [GObj.box 0]
    have h1 : tbInit boxes ident 1 = ⟨[], [GObj.box 0], [], [], 0⟩ := rfl
    rw [h1]
    cases fuel with
    | zero => rfl
    | succ f => rfl

/-- C3 counterexample: three mutually-vetoing boxes (each pair's bounding
union strictly contains part of the third).  The pair `(0, 1)` has the
strictly smallest distance and box 2 lies inside its bounding union (its
initial `isany` is non-empty), yet the final grouping merges boxes 0 and
1 directly with each other (the inner group has them as its two
children): after every pair is vetoed once, the re-popped vetoed pair
skips the `isany` check and merges.  The final heap is empty, so the run
terminated. -/
theorem anything_in_between_counterexample :
    group_textboxes_model cBoxes3 (fun _ => false) (fun i => i)
        (fun g => 100 + g) ⟨0, 0, 100, 100⟩ 3 8 =
      [GObj.group false 1
        (GObj.group false 0 (GObj.box 0) (GObj.box 1)) (GObj.box 2)] ∧
    isanyModel cBoxes3 ⟨0, 0, 100, 100⟩ (tbInit cBoxes3 (fun i => i) 3)
        (GObj.box 0) (GObj.box 1) = [GObj.box 2] ∧
    gdist cBoxes3 (GObj.box 0) (GObj.box 1) <
      gdist cBoxes3 (GObj.box 0) (GObj.box 2) ∧
    gdist cBoxes3 (GObj.box 0) (GObj.box 1) <
      gdist cBoxes3 (GObj.box 1) (GObj.box 2) ∧
    (tbRun cBoxes3 (fun _ => false) (fun i => i) (fun g => 100 + g)
        ⟨0, 0, 100, 100⟩ 8 (tbInit cBoxes3 (fun i => i) 3)).heap = [] := by
  refine ⟨?_, ?_, ?_, ?_, ?_⟩ <;> with_unfolding_all decide

/-- C3 (amended): the veto itself behaves as specified — when the popped
minimum entry is unflagged, neither of its ids is done and `isany` of its
pair is non-empty, the iteration only re-pushes the entry with the veto
flag set and changes nothing else; and a flagged entry orders strictly
after every unflagged entry regardless of distance.  (The claim's further
consequence — that the vetoed pair is never merged directly before a pair
involving the intervening box — is refuted by
the counterexample: a re-popped flagged entry skips the `isany` check and
merges immediately.) -/
theorem anything_in_between_veto :
    (∀ (boxes : ℕ → BBox) (vflags : ℕ → Bool) (ident gident : ℕ → ℕ)
        (P : BBox) (st : TBState) (e : HEntry),
      heapMin st.heap = some e → e.flag = false →
      e.id1 ∉ st.doneIds → e.id2 ∉ st.doneIds →
      isanyModel boxes P st e.o1 e.o2 ≠ [] →
      tbStep boxes vflags ident gident P st =
        ⟨st.heap.erase e ++ [⟨true, e.d, e.id1, e.id2, e.o1, e.o2⟩],
          st.seq, st.removed, st.doneIds, st.gcount⟩) ∧
    (∀ e f : HEntry, e.flag = false → f.flag = true →
      hkeyLT e f = true ∧ hkeyLT f e = false) := by
  constructor
  · intro boxes vflags ident gident P st e hm hflag h1 h2 hia
    rw [tbStep_of_min_some hm]
    refine tbPop_veto (not_or.mpr ⟨h1, h2⟩) ?_
    have hne : (isanyModel boxes P st e.o1 e.o2).isEmpty = false := by
      cases hl : isanyModel boxes P st e.o1 e.o2 with
      | nil => exact absurd hl hia
      | cons a as => rfl
    rw [hflag, hne]
    rfl
  · intro e f he hf
    constructor
    · unfold hkeyLT
      rw [he, hf]
      rfl
    · unfold hkeyLT
      rw [he, hf]
      rfl

theorem anything_in_between_veto_witness :
    tbStep cBoxes3 (fun _ => false) (fun i => i) (fun g => 100 + g)
        ⟨0, 0, 100, 100⟩ (tbInit cBoxes3 (fun i => i) 3) =
      ⟨(tbInit cBoxes3 (fun i => i) 3).heap.erase
          ⟨false, -60, 0, 1, GObj.box 0, GObj.box 1⟩ ++
          [⟨true, -60, 0, 1, GObj.box 0, GObj.box 1⟩],
        (tbInit cBoxes3 (fun i => i) 3).seq,
        (tbInit cBoxes3 (fun i => i) 3).removed,
        (tbInit cBoxes3 (fun i => i) 3).doneIds,
        (tbInit cBoxes3 (fun i => i) 3).gcount⟩ ∧
      hkeyLT ⟨false, 0, 5, 5, GObj.box 0, GObj.box 1⟩
          ⟨true, -100, 0, 0, GObj.box 0, GObj.box 1⟩ = true :=
  ⟨anything_in_between_veto.1 cBoxes3 (fun _ => false) (fun i => i)
      (fun g => 100 + g) ⟨0, 0, 100, 100⟩ (tbInit cBoxes3 (fun i => i) 3)
      ⟨false, -60, 0, 1, GObj.box 0, GObj.box 1⟩
      (by with_unfolding_all decide) rfl
      (by with_unfolding_all decide) (by with_unfolding_all decide)
      (by with_unfolding_all decide),
    (anything_in_between_veto.2 ⟨false, 0, 5, 5, GObj.box 0, GObj.box 1⟩
      ⟨true, -100, 0, 0, GObj.box 0, GObj.box 1⟩ rfl rfl).1⟩

theorem mapEntry_injective {f : ℕ → ℕ} (hf : Function.Injective f) :
    Function.Injective (mapEntry f) := by
  intro a b h
  cases a with
  | mk af ad a1 a2 ao1 ao2 =>
    cases b with
    | mk bf bd b1 b2 bo1 bo2 =>
      simp only [mapEntry, HEntry.mk.injEq] at h ⊢
      obtain ⟨h1, h2, h3, h4, h5, h6⟩ := h
      exact ⟨h1, h2, hf h3, hf h4, h5, h6⟩

theorem hkeyLT_map {f : ℕ → ℕ} (hf : StrictMono f) (e a : HEntry) :
    hkeyLT (mapEntry f e) (mapEntry f a) = hkeyLT e a := by
  unfold hkeyLT mapEntry
  dsimp only
  simp only [hf.lt_iff_lt, hf.injective.eq_iff]

theorem foldl_min_map {f : ℕ → ℕ} (hf : StrictMono f) :
    ∀ (es : List HEntry) (e : HEntry),
      (es.map (mapEntry f)).foldl (fun m x => if hkeyLT x m then x else m)
          (mapEntry f e) =
        mapEntry f (es.foldl (fun m x => if hkeyLT x m then x else m) e) := by
  intro es
  induction es with
  | nil => intro e; rfl
  | cons a as ih =>
      intro e
      rw [List.map_cons, List.foldl_cons, List.foldl_cons]
      rw [hkeyLT_map hf a e]
      by_cases h : hkeyLT a e = true
      · rw [if_pos h, if_pos h]
        exact ih a
      · rw [if_neg h, if_neg h]
        exact ih e

theorem heapMin_map {f : ℕ → ℕ} (hf : StrictMono f) (l : List HEntry) :
    heapMin (l.map (mapEntry f)) = (heapMin l).map (mapEntry f) := by
  cases l with
  | nil => rfl
  | cons e es =>
      rw [List.map_cons, heapMin, heapMin, foldl_min_map hf]
      rfl

theorem objId_comp (f ident gident : ℕ → ℕ) (o : GObj) :
    objId (f ∘ ident) (f ∘ gident) o = f (objId ident gident o) := by
  cases o <;> rfl

theorem newEntries_map (f ident gident : ℕ → ℕ) (boxes : ℕ → BBox)
    (g : GObj) (c : ℕ) (live : List GObj) :
    (live.map fun other => (⟨false, gdist boxes g other, (f ∘ gident) c,
        objId (f ∘ ident) (f ∘ gident) other, g, other⟩ : HEntry)) =
      (live.map fun other => (⟨false, gdist boxes g other, gident c,
        objId ident gident other, g, other⟩ : HEntry)).map (mapEntry f) := by
  induction live with
  | nil => rfl
  | cons a as ih =>
      simp only [List.map_cons]
      rw [ih]
      congr 1
      unfold mapEntry
      dsimp only
      rw [objId_comp]
      rfl

theorem tbPop_map {f : ℕ → ℕ} (hf : StrictMono f) (boxes : ℕ → BBox)
    (vflags : ℕ → Bool) (ident gident : ℕ → ℕ) (P : BBox) (st : TBState)
    (e : HEntry) :
    tbPop boxes vflags (f ∘ ident) (f ∘ gident) P (mapState f st)
        (mapEntry f e) =
      mapState f (tbPop boxes vflags ident gident P st e) := by
  have hinj := hf.injective
  by_cases hd : e.id1 ∈ st.doneIds ∨ e.id2 ∈ st.doneIds
  · have hd2 : (mapEntry f e).id1 ∈ (mapState f st).doneIds ∨
        (mapEntry f e).id2 ∈ (mapState f st).doneIds := by
      rcases hd with h | h
      · exact Or.inl ((List.mem_map_of_injective hinj).mpr h)
      · exact Or.inr ((List.mem_map_of_injective hinj).mpr h)
    rw [tbPop_done hd2, tbPop_done hd]
    unfold mapState
    dsimp only
    rw [List.map_erase (mapEntry_injective hinj)]
  · have hd2 : ¬((mapEntry f e).id1 ∈ (mapState f st).doneIds ∨
        (mapEntry f e).id2 ∈ (mapState f st).doneIds) := by
      rintro (h | h)
      · exact hd (Or.inl ((List.mem_map_of_injective hinj).mp h))
      · exact hd (Or.inr ((List.mem_map_of_injective hinj).mp h))
    by_cases hc : (!e.flag && !(isanyModel boxes P st e.o1 e.o2).isEmpty) = true
    · have hc2 : (!(mapEntry f e).flag &&
          !(isanyModel boxes P (mapState f st) (mapEntry f e).o1
            (mapEntry f e).o2).isEmpty) = true := hc
      rw [tbPop_veto hd2 hc2, tbPop_veto hd hc]
      unfold mapState
      dsimp only
      rw [List.map_append, List.map_erase (mapEntry_injective hinj)]
      rfl
    · have hc' : (!e.flag && !(isanyModel boxes P st e.o1 e.o2).isEmpty) =
          false := Bool.eq_false_iff.mpr hc
      have hc2 : (!(mapEntry f e).flag &&
          !(isanyModel boxes P (mapState f st) (mapEntry f e).o1
            (mapEntry f e).o2).isEmpty) = false := hc'
      rw [tbPop_merge hd2 hc2, tbPop_merge hd hc']
      unfold mapState
      dsimp only
      rw [List.map_append, List.map_erase (mapEntry_injective hinj),
        List.map_append, newEntries_map f ident gident boxes]
      rfl

theorem tbStep_map {f : ℕ → ℕ} (hf : StrictMono f) (boxes : ℕ → BBox)
    (vflags : ℕ → Bool) (ident gident : ℕ → ℕ) (P : BBox) (st : TBState) :
    tbStep boxes vflags (f ∘ ident) (f ∘ gident) P (mapState f st) =
      mapState f (tbStep boxes vflags ident gident P st) := by
  cases hm : heapMin st.heap with
  | none =>
      have hm2 : heapMin (mapState f st).heap = none := by
        show heapMin (st.heap.map (mapEntry f)) = none
        rw [heapMin_map hf, hm]
        rfl
      rw [tbStep_of_min_none hm2, tbStep_of_min_none hm]
  | some e =>
      have hm2 : heapMin (mapState f st).heap = some (mapEntry f e) := by
        show heapMin (st.heap.map (mapEntry f)) = some (mapEntry f e)
        rw [heapMin_map hf, hm]
        rfl
      rw [tbStep_of_min_some hm2, tbStep_of_min_some hm]
      exact tbPop_map hf boxes vflags ident gident P st e

theorem tbRun_succ_none {boxes : ℕ → BBox} {vflags : ℕ → Bool}
    {ident gident : ℕ → ℕ} {P : BBox} {fl : ℕ} {st : TBState}
    (hm : heapMin st.heap = none) :
    tbRun boxes vflags ident gident P (Nat.succ fl) st = st := by
  rw [tbRun, hm]

theorem tbRun_succ_some {boxes : ℕ → BBox} {vflags : ℕ → Bool}
    {ident gident : ℕ → ℕ} {P : BBox} {fl : ℕ} {st : TBState} {e : HEntry}
    (hm : heapMin st.heap = some e) :
    tbRun boxes vflags ident gident P (Nat.succ fl) st =
      tbRun boxes vflags ident gident P fl
        (tbStep boxes vflags ident gident P st) := by
  rw [tbRun, hm]

theorem tbRun_map {f : ℕ → ℕ} (hf : StrictMono f) (boxes : ℕ → BBox)
    (vflags : ℕ → Bool) (ident gident : ℕ → ℕ) (P : BBox) :
    ∀ (fuel : ℕ) (st : TBState),
      tbRun boxes vflags (f ∘ ident) (f ∘ gident) P fuel (mapState f st) =
        mapState f (tbRun boxes vflags ident gident P fuel st) := by
  intro fuel
  induction fuel with
  | zero => intro st; rfl
  | succ fl ih =>
      intro st
      cases hm : heapMin st.heap with
      | none =>
          have hm2 : heapMin (mapState f st).heap = none := by
            show heapMin (st.heap.map (mapEntry f)) = none
            rw [heapMin_map hf, hm]
            rfl
          rw [tbRun_succ_none hm2, tbRun_succ_none hm]
      | some e =>
          have hm2 : heapMin (mapState f st).heap = some (mapEntry f e) := by
            show heapMin (st.heap.map (mapEntry f)) = some (mapEntry f e)
            rw [heapMin_map hf, hm]
            rfl
          rw [tbRun_succ_some hm2, tbRun_succ_some hm,
            tbStep_map hf boxes vflags ident gident P st]
          exact ih _

theorem tbInit_map (f : ℕ → ℕ) (boxes : ℕ → BBox) (ident : ℕ → ℕ) (n : ℕ) :
    mapState f (tbInit boxes ident n) = tbInit boxes (f ∘ ident) n := by
  unfold mapState tbInit
  dsimp only
  congr 1
  rw [List.map_flatMap]
  exact congrArg _ (funext fun i => by
    rw [List.map_map]
    exact congrFun (congrArg List.map (funext fun j => rfl)) _)

theorem tbResult_map (f : ℕ → ℕ) (st : TBState) :
    tbResult (mapState f st) = tbResult st := rfl

/-- C1 counterexample: three equal, well-separated boxes where the pairs
`(0, 1)` and `(1, 2)` have the same distance.  Under the id assignment
`i + 1` the clustering merges boxes 0 and 1 first; under the assignment
`3 - i` (same boxes, same configuration, only the objects' memory
addresses differ) it merges boxes 1 and 2 first, and the resulting
groupings differ.  Both runs drain their heaps, so the difference is not
a fuel artifact: the tie among equal-distance pairs is broken by the
`id()` components of the heap tuples, not by a stable key. -/
theorem determinism_counterexample :
    group_textboxes_model sepBoxes3 (fun _ => false) (fun i => i + 1)
        (fun g => 100 + g) ⟨0, 0, 100, 100⟩ 3 8 =
      [GObj.group false 1
        (GObj.group false 0 (GObj.box 0) (GObj.box 1)) (GObj.box 2)] ∧
    group_textboxes_model sepBoxes3 (fun _ => false) (fun i => 3 - i)
        (fun g => 100 + g) ⟨0, 0, 100, 100⟩ 3 8 =
      [GObj.group false 1
        (GObj.group false 0 (GObj.box 1) (GObj.box 2)) (GObj.box 0)] ∧
    gdist sepBoxes3 (GObj.box 0) (GObj.box 1) =
      gdist sepBoxes3 (GObj.box 1) (GObj.box 2) ∧
    (tbRun sepBoxes3 (fun _ => false) (fun i => i + 1) (fun g => 100 + g)
        ⟨0, 0, 100, 100⟩ 8 (tbInit sepBoxes3 (fun i => i + 1) 3)).heap = [] ∧
    (tbRun sepBoxes3 (fun _ => false) (fun i => 3 - i) (fun g => 100 + g)
        ⟨0, 0, 100, 100⟩ 8 (tbInit sepBoxes3 (fun i => 3 - i) 3)).heap = [] := by
  refine ⟨?_, ?_, ?_, ?_, ?_⟩ <;> with_unfolding_all decide

/-- C1 (amended): `group_textboxes` is deterministic only up to the
relative order of the Python `id()` values: relabelling all ids by any
strictly monotone map leaves the grouping and output order unchanged, so
the result depends on the objects' memory addresses only through their
relative order.  (Full run-to-run determinism, and independence of ties
from object identity, fails: by the counterexample, two id assignments
that order the boxes differently yield different groupings, because
equal-distance ties in the heap are broken by the `id()` tuple
components.) -/
theorem group_textboxes_determinism :
    ∀ (boxes : ℕ → BBox) (vflags : ℕ → Bool) (ident gident : ℕ → ℕ)
      (P : BBox) (n fuel : ℕ) (f : ℕ → ℕ), StrictMono f →
      group_textboxes_model boxes vflags (f ∘ ident) (f ∘ gident) P n fuel =
        group_textboxes_model boxes vflags ident gident P n fuel := by
  intro boxes vflags ident gident P n fuel f hf
  unfold group_textboxes_model
  rw [← tbInit_map f boxes ident n, tbRun_map hf, tbResult_map]

theorem group_textboxes_determinism_witness :
    group_textboxes_model sepBoxes3 (fun _ => false)
        ((fun k => k + 5) ∘ fun i => i + 1)
        ((fun k => k + 5) ∘ fun g => 100 + g) ⟨0, 0, 100, 100⟩ 3 8 =
      group_textboxes_model sepBoxes3 (fun _ => false) (fun i => i + 1)
        (fun g => 100 + g) ⟨0, 0, 100, 100⟩ 3 8 :=
  group_textboxes_determinism sepBoxes3 (fun _ => false) (fun i => i + 1)
    (fun g => 100 + g) ⟨0, 0, 100, 100⟩ 3 8 (fun k => k + 5)
    (by intro a b h; exact Nat.add_lt_add_right h 5)

theorem group_objects_branch_structure_witness :
    groupStep dvParams vChar2 (some vLine12) vChar3 = ([vLine12], none) ∧
      (groupStep dvParams vChar1 none vChar2 =
          ([], some (((newHLine dvParams.word_margin).add vChar1).add vChar2)) ∧
        (((newHLine dvParams.word_margin).add vChar1).add vChar2).vertical =
          false ∧
        (((newHLine dvParams.word_margin).add vChar1).add vChar2).chars =
          [vChar1, vChar2]) :=
  ⟨(group_objects_branch_structure dvParams vChar2 vChar3).2.1 vLine12
      (by with_unfolding_all decide),
    (group_objects_branch_structure dvParams vChar1 vChar2).2.2.2.2
      (by with_unfolding_all decide) (by with_unfolding_all decide)⟩

theorem flow_none_ordering_witness :
    ((sortTextboxesFlowNone
        [⟨false, ⟨0, 90, 10, 100⟩⟩, ⟨false, ⟨0, 40, 10, 50⟩⟩]).Sorted
          getkeyLE ∧
      (sortTextboxesFlowNone
        [⟨false, ⟨0, 90, 10, 100⟩⟩, ⟨false, ⟨0, 40, 10, 50⟩⟩]).Perm
          [⟨false, ⟨0, 90, 10, 100⟩⟩, ⟨false, ⟨0, 40, 10, 50⟩⟩]) ∧
    (getkeyLE ⟨false, ⟨0, 90, 10, 100⟩⟩ ⟨false, ⟨0, 40, 10, 50⟩⟩ ↔
      ((40 : ℚ) < 90 ∨ ((90 : ℚ) = 40 ∧ (0 : ℚ) ≤ 0))) ∧
    (getkeyLE ⟨true, ⟨0, 0, 5, 5⟩⟩ ⟨true, ⟨2, 1, 5, 6⟩⟩ ↔
      ((5 : ℚ) < 5 ∨ ((5 : ℚ) = 5 ∧ (1 : ℚ) ≤ 0))) ∧
    (getkeyLE ⟨true, ⟨0, 0, 5, 5⟩⟩ ⟨false, ⟨0, 40, 10, 50⟩⟩ ∧
      ¬getkeyLE ⟨false, ⟨0, 40, 10, 50⟩⟩ ⟨true, ⟨0, 0, 5, 5⟩⟩) :=
  ⟨flow_none_ordering.1 [⟨false, ⟨0, 90, 10, 100⟩⟩, ⟨false, ⟨0, 40, 10, 50⟩⟩],
    flow_none_ordering.2.1 ⟨false, ⟨0, 90, 10, 100⟩⟩ ⟨false, ⟨0, 40, 10, 50⟩⟩
      rfl rfl,
    flow_none_ordering.2.2.1 ⟨true, ⟨0, 0, 5, 5⟩⟩ ⟨true, ⟨2, 1, 5, 6⟩⟩ rfl rfl,
    flow_none_ordering.2.2.2.1 ⟨true, ⟨0, 0, 5, 5⟩⟩ ⟨false, ⟨0, 40, 10, 50⟩⟩
      rfl rfl⟩

end PavesMiner
